import Mathlib

/-!
Verification development for the keeda generation-task orchestration
subsystem (backend/app/services/llm_tasks, backend/app/db/repositories,
backend/app/services/agent_manager.py).

The Python code is shallowly embedded: dictionaries become association
lists, MongoDB collections become lists of records, `async` effects
(database writes, backoff sleeps, scheduler events) become explicit
state passing and event traces, and exceptions become `Except`/`Option`
results.  `json.dumps` / `json.loads` from the Python standard library
are modelled on a JSON value type restricted to the shapes the code
actually serializes (null, booleans, arbitrary-precision integers,
strings, arrays, objects; floats are outside the modelled fragment).
-/

namespace Keeda

/-- JSON values as produced and consumed by the Python code
(`json.dumps` / `json.loads`); floats are outside the modelled
fragment. Objects are insertion-ordered association lists, matching
Python dicts. -/
inductive Json where
  | null : Json
  | bool : Bool → Json
  | int : Int → Json
  | str : String → Json
  | arr : List Json → Json
  | obj : List (String × Json) → Json

/-- Opening curly brace character (written via its code point). -/
def lcurl : Char := Char.ofNat 123

/-- Closing curly brace character (written via its code point). -/
def rcurl : Char := Char.ofNat 125

/-- Decimal digit character for a value below ten. -/
def digitChar (n : Nat) : Char := Char.ofNat (48 + n)

/-- Lower-case hexadecimal digit character for a value below sixteen. -/
def hexChar (n : Nat) : Char :=
  if n < 10 then Char.ofNat (48 + n) else Char.ofNat (87 + n)

/-- Fuel-indexed helper for `natDigits`; structural recursion on the
fuel keeps the definition kernel-reducible.  With fuel at least `n` the
fuel never runs out. -/
def natDigitsAux : Nat → Nat → List Char
  | 0, n => [digitChar n]
  | fuel + 1, n =>
      if n < 10 then [digitChar n]
      else natDigitsAux fuel (n / 10) ++ [digitChar (n % 10)]

/-- Decimal digits of a natural number, most significant first
(the representation `repr(n)` that Python's `json.dumps` emits). -/
def natDigits (n : Nat) : List Char := natDigitsAux n n

/-- Decimal representation of an integer, with a leading minus sign for
negative values, as Python prints ints inside JSON. -/
def intChars (i : Int) : List Char :=
  if i < 0 then '-' :: natDigits i.natAbs else natDigits i.toNat

/-- Four lower-case hex digits of a code point below `0x10000`. -/
def hex4 (n : Nat) : List Char :=
  [hexChar (n / 4096 % 16), hexChar (n / 256 % 16),
   hexChar (n / 16 % 16), hexChar (n % 16)]

/-- Escaping of one character inside a JSON string literal, following
`json.dumps` with its default `ensure_ascii=True`: `"` and `\` get a
backslash, the named control escapes are used for backspace, form feed,
newline, carriage return and tab, other control characters and all
non-ASCII characters become `\uXXXX` (astral code points become a
surrogate pair). -/
def escChar (c : Char) : List Char :=
  if c = '"' then ['\\', '"']
  else if c = '\\' then ['\\', '\\']
  else if c = '\x08' then ['\\', 'b']
  else if c = '\x0c' then ['\\', 'f']
  else if c = '\n' then ['\\', 'n']
  else if c = '\x0d' then ['\\', 'r']
  else if c = '\t' then ['\\', 't']
  else if c.toNat < 32 then '\\' :: 'u' :: hex4 c.toNat
  else if c.toNat < 128 then [c]
  else if c.toNat < 65536 then '\\' :: 'u' :: hex4 c.toNat
  else
    let m := c.toNat - 65536
    ('\\' :: 'u' :: hex4 (55296 + m / 1024)) ++ ('\\' :: 'u' :: hex4 (56320 + m % 1024))

/-- Escaping of a whole character list. -/
def escList : List Char → List Char
  | [] => []
  | c :: cs => escChar c ++ escList cs

/-- The characters of the literal `null`. -/
def nullChars : List Char := ['n', 'u', 'l', 'l']

/-- The characters of the literal `true`. -/
def trueChars : List Char := ['t', 'r', 'u', 'e']

/-- The characters of the literal `false`. -/
def falseChars : List Char := ['f', 'a', 'l', 's', 'e']

mutual

/-- Serialization of a JSON value as a character list, following
`json.dumps` with its default separators `", "` and `": "`. -/
def dumpsL : Json → List Char
  | .null => nullChars
  | .bool true => trueChars
  | .bool false => falseChars
  | .int i => intChars i
  | .str s => '"' :: (escList s.data ++ ['"'])
  | .arr xs => '[' :: (dumpsArr xs ++ [']'])
  | .obj fs => lcurl :: (dumpsObj fs ++ [rcurl])

/-- Serialization of array elements, separated by `", "`. -/
def dumpsArr : List Json → List Char
  | [] => []
  | [x] => dumpsL x
  | x :: y :: rest => dumpsL x ++ (',' :: ' ' :: dumpsArr (y :: rest))

/-- Serialization of object entries `"key": value`, separated by `", "`. -/
def dumpsObj : List (String × Json) → List Char
  | [] => []
  | [(k, v)] => '"' :: (escList k.data ++ ('"' :: ':' :: ' ' :: dumpsL v))
  | (k, v) :: f :: rest =>
      ('"' :: (escList k.data ++ ('"' :: ':' :: ' ' :: dumpsL v)))
        ++ (',' :: ' ' :: dumpsObj (f :: rest))

end

/-- Serialization of a JSON value as a string (`json.dumps`). -/
def dumps (v : Json) : String := String.mk (dumpsL v)

/-! ## Python dictionaries

Context bundles are Python dicts with string keys; they are embedded as
insertion-ordered association lists without duplicate keys (Python
dicts cannot hold duplicates). -/

/-- Context mapping: an insertion-ordered Python dict. -/
abbrev PyDict := List (String × Json)

/-- Membership test `key in d` on a Python dict. -/
def PyDict.hasKey (d : PyDict) (k : String) : Bool :=
  d.any (fun e => e.1 = k)

/-- Lookup `d[key]` on a Python dict. -/
def PyDict.get (d : PyDict) (k : String) : Option Json :=
  (d.find? (fun e => e.1 = k)).map (·.2)

/-- Assignment `d[key] = v`: replaces the value in place, keeping the
key's position (Python dict update semantics); appends if absent. -/
def PyDict.set (d : PyDict) (k : String) (v : Json) : PyDict :=
  match d with
  | [] => [(k, v)]
  | e :: rest => if e.1 = k then (k, v) :: rest else e :: PyDict.set rest k v

/-- Deletion `del d[key]`: removes the entry for the key. -/
def PyDict.del (d : PyDict) (k : String) : PyDict :=
  match d with
  | [] => []
  | e :: rest => if e.1 = k then rest else e :: PyDict.del rest k

/-! ## Context assembler: size estimation and trimming
(`app/services/llm_tasks/context.py`, `ContextManager`) -/

/-- Model of `ContextManager.calculate_context_size`: estimates the
token count of a context as `len(json.dumps(context, default=str)) // 4`. -/
def calculate_context_size (context : PyDict) : Nat :=
  (dumpsL (.obj context)).length / 4

/-- Trim priority list of `trim_context`, least essential keys first. -/
def trim_order : List String :=
  ["reference_images", "images", "previous_scene", "scenes", "panels", "instructions"]

/-- One trimming action of `trim_context` on a present key: a list with
more than one item is cut to its first half `[:max(1, len // 2)]`,
anything else is deleted from the dict.  On an absent key it is the
identity (the loop guard `key in trimmed` skips such keys). -/
def trimStep (d : PyDict) (key : String) : PyDict :=
  match PyDict.get d key with
  | some (.arr xs) =>
      if xs.length > 1 then PyDict.set d key (.arr (xs.take (max 1 (xs.length / 2))))
      else PyDict.del d key
  | some _ => PyDict.del d key
  | none => d

/-- Loop body of `trim_context`: walks the ordered trim keys carrying
the current size estimate, trimming a present key while the estimate
exceeds the budget and re-estimating after each step. -/
def trimLoop (max_tokens : Nat) : List String → PyDict → Nat → PyDict
  | [], d, _ => d
  | key :: rest, d, current_size =>
      if PyDict.hasKey d key ∧ current_size > max_tokens then
        let d' := trimStep d key
        trimLoop max_tokens rest d' (calculate_context_size d')
      else
        trimLoop max_tokens rest d current_size

/-- Model of `ContextManager.trim_context`: returns the context
unchanged when the estimate is within budget, otherwise performs one
pass over `trim_order` halving or dropping keys until the estimate is
within budget or the keys are exhausted. -/
def trim_context (context : PyDict) (max_tokens : Nat := 2000) : PyDict :=
  let current_size := calculate_context_size context
  if current_size ≤ max_tokens then context
  else trimLoop max_tokens trim_order context current_size


/-! ### Serialization length lemmas -/

theorem natDigitsAux_ne_nil (fuel n : Nat) : natDigitsAux fuel n ≠ [] := by
  cases fuel with
  | zero => simp [natDigitsAux]
  | succ f =>
      simp only [natDigitsAux]
      split
      · simp
      · simp

theorem dumpsL_length_pos (v : Json) : 0 < (dumpsL v).length := by
  cases v with
  | null => simp [dumpsL, nullChars]
  | bool b => cases b <;> simp [dumpsL, trueChars, falseChars]
  | int i =>
      simp only [dumpsL, intChars]
      split
      · simp
      · simpa using List.length_pos.mpr (natDigitsAux_ne_nil _ _)
  | str s => simp [dumpsL]
  | arr xs => simp [dumpsL]
  | obj fs => simp [dumpsL]

/-- Serialized length of one object entry `"key": value`. -/
def entryLen (e : String × Json) : Nat :=
  4 + (escList e.1.data).length + (dumpsL e.2).length

theorem dumpsObj_singleton_length (e : String × Json) :
    (dumpsObj [e]).length = entryLen e := by
  cases e with
  | mk k v => simp [dumpsObj, entryLen]; omega

theorem dumpsObj_cons_cons_length (e f : String × Json) (r : List (String × Json)) :
    (dumpsObj (e :: f :: r)).length = entryLen e + 2 + (dumpsObj (f :: r)).length := by
  cases e with
  | mk k v => simp [dumpsObj, entryLen]; omega

theorem entryLen_pos (e : String × Json) : 0 < entryLen e := by
  simp [entryLen]

theorem dumpsObj_cons_pos (e : String × Json) (r : List (String × Json)) :
    0 < (dumpsObj (e :: r)).length := by
  cases r with
  | nil => rw [dumpsObj_singleton_length]; exact entryLen_pos e
  | cons f s => rw [dumpsObj_cons_cons_length]; have := entryLen_pos e; omega

theorem dumpsObj_del_length_lt (d : PyDict) (k : String) :
    PyDict.hasKey d k → (dumpsObj (PyDict.del d k)).length < (dumpsObj d).length := by
  induction d with
  | nil => simp [PyDict.hasKey]
  | cons e rest ih =>
      intro hk
      by_cases he : e.1 = k
      · have hdel : PyDict.del (e :: rest) k = rest := by simp [PyDict.del, he]
        rw [hdel]
        cases rest with
        | nil =>
            rw [dumpsObj_singleton_length]
            simpa [dumpsObj] using entryLen_pos e
        | cons f r =>
            rw [dumpsObj_cons_cons_length]
            have := entryLen_pos e
            omega
      · have hdel : PyDict.del (e :: rest) k = e :: PyDict.del rest k := by
          simp [PyDict.del, he]
        have hk' : PyDict.hasKey rest k := by
          simp only [PyDict.hasKey, List.any_cons] at hk
          rcases Bool.or_eq_true_iff.mp hk with h | h
          · exact absurd (by simpa using h) he
          · exact h
        have hrest : rest ≠ [] := by
          intro hnil; rw [hnil] at hk'; simp [PyDict.hasKey] at hk'
        have ihlt := ih hk'
        rw [hdel]
        cases hrd : PyDict.del rest k with
        | nil =>
            rw [dumpsObj_singleton_length]
            cases rest with
            | nil => exact absurd rfl hrest
            | cons f r =>
                rw [dumpsObj_cons_cons_length]
                have := dumpsObj_cons_pos f r
                omega
        | cons g s =>
            rw [dumpsObj_cons_cons_length]
            cases rest with
            | nil => exact absurd rfl hrest
            | cons f r =>
                rw [dumpsObj_cons_cons_length]
                rw [hrd] at ihlt
                omega

theorem dumpsArr_append (l1 l2 : List Json) (h1 : l1 ≠ []) (h2 : l2 ≠ []) :
    dumpsArr (l1 ++ l2) = dumpsArr l1 ++ (',' :: ' ' :: dumpsArr l2) := by
  induction l1 with
  | nil => exact absurd rfl h1
  | cons a t ih =>
      cases t with
      | nil =>
          cases l2 with
          | nil => exact absurd rfl h2
          | cons c s => simp [dumpsArr]
      | cons b r =>
          have ih' := ih (by simp)
          simp only [List.cons_append] at ih' ⊢
          simp only [dumpsArr]
          rw [ih']
          simp

theorem dumpsL_arr_take_lt (xs : List Json) (m : Nat) (h1 : 1 ≤ m)
    (h2 : m < xs.length) :
    (dumpsL (.arr (xs.take m))).length < (dumpsL (.arr xs)).length := by
  have hsplit : xs = xs.take m ++ xs.drop m := (List.take_append_drop m xs).symm
  have hdrop : xs.drop m ≠ [] := by
    intro hnil
    have hlen := congrArg List.length hnil
    rw [List.length_drop] at hlen
    simp only [List.length_nil] at hlen
    omega
  have htake : xs.take m ≠ [] := by
    intro hnil
    have hlen := congrArg List.length hnil
    rw [List.length_take] at hlen
    simp only [List.length_nil] at hlen
    omega
  have happ := dumpsArr_append (xs.take m) (xs.drop m) htake hdrop
  rw [← hsplit] at happ
  simp only [dumpsL, List.length_cons, List.length_append]
  rw [happ]
  simp only [List.length_append, List.length_cons]
  have := dumpsL_length_pos (.arr (xs.drop m))
  omega

theorem PyDict.set_ne_nil (d : PyDict) (k : String) (w : Json) :
    PyDict.set d k w ≠ [] := by
  cases d with
  | nil => simp [PyDict.set]
  | cons e rest =>
      simp only [PyDict.set]
      split <;> simp

theorem dumpsObj_set_length_lt (d : PyDict) (k : String) (w : Json) :
    ∀ v, PyDict.get d k = some v → (dumpsL w).length < (dumpsL v).length →
    (dumpsObj (PyDict.set d k w)).length < (dumpsObj d).length := by
  induction d with
  | nil => intro v hv; simp [PyDict.get] at hv
  | cons e rest ih =>
      intro v hv hlen
      by_cases he : e.1 = k
      · have hfind : PyDict.get (e :: rest) k = some e.2 := by
          simp [PyDict.get, List.find?_cons_of_pos, he]
        have hvv : v = e.2 := by
          rw [hfind] at hv
          exact (Option.some.inj hv).symm
        have hset : PyDict.set (e :: rest) k w = (k, w) :: rest := by
          simp [PyDict.set, he]
        have hesc : (escList (String.data k)).length = (escList e.1.data).length := by
          rw [he]
        rw [hvv] at hlen
        rw [hset]
        cases rest with
        | nil =>
            rw [dumpsObj_singleton_length, dumpsObj_singleton_length]
            simp only [entryLen] at *
            omega
        | cons f r =>
            rw [dumpsObj_cons_cons_length, dumpsObj_cons_cons_length]
            simp only [entryLen] at *
            omega
      · have hget' : PyDict.get rest k = some v := by
          simp only [PyDict.get] at hv ⊢
          rwa [List.find?_cons_of_neg] at hv
          simp [he]
        have hset : PyDict.set (e :: rest) k w = e :: PyDict.set rest k w := by
          simp [PyDict.set, he]
        have hrest : rest ≠ [] := by
          intro hnil; rw [hnil] at hget'; simp [PyDict.get] at hget'
        have ihlt := ih v hget' hlen
        rw [hset]
        cases hs : PyDict.set rest k w with
        | nil => exact absurd hs (PyDict.set_ne_nil rest k w)
        | cons g s =>
            cases rest with
            | nil => exact absurd rfl hrest
            | cons f r =>
                rw [dumpsObj_cons_cons_length, dumpsObj_cons_cons_length]
                rw [hs] at ihlt
                omega

/-! ### Trimming lemmas -/

theorem PyDict.hasKey_iff_get (d : PyDict) (k : String) :
    PyDict.hasKey d k = true ↔ ∃ v, PyDict.get d k = some v := by
  constructor
  · intro h
    rcases List.any_eq_true.mp h with ⟨e, hmem, hp⟩
    have : (d.find? (fun x => x.1 = k)).isSome := by
      rw [List.find?_isSome]
      exact ⟨e, hmem, hp⟩
    rcases Option.isSome_iff_exists.mp this with ⟨f, hf⟩
    exact ⟨f.2, by simp [PyDict.get, hf]⟩
  · rintro ⟨v, hv⟩
    simp only [PyDict.get] at hv
    rcases Option.map_eq_some'.mp hv with ⟨e, he, _⟩
    have hp := List.find?_some (p := fun x : String × Json => decide (x.1 = k)) he
    exact List.any_eq_true.mpr ⟨e, List.mem_of_find?_eq_some he, hp⟩

theorem trimStep_of_not_hasKey (d : PyDict) (k : String)
    (h : PyDict.hasKey d k = false) : trimStep d k = d := by
  have hget : PyDict.get d k = none := by
    by_contra hne
    rcases Option.ne_none_iff_exists.mp hne with ⟨v, hv⟩
    have := (PyDict.hasKey_iff_get d k).mpr ⟨v, hv.symm⟩
    rw [h] at this
    exact Bool.false_ne_true this
  simp [trimStep, hget]

theorem trimStep_length_lt (d : PyDict) (k : String)
    (h : PyDict.hasKey d k = true) :
    (dumpsL (.obj (trimStep d k))).length < (dumpsL (.obj d)).length := by
  rcases (PyDict.hasKey_iff_get d k).mp h with ⟨v, hv⟩
  have hobjlen : ∀ fs : List (String × Json),
      (dumpsL (.obj fs)).length = (dumpsObj fs).length + 2 := by
    intro fs
    simp only [dumpsL, List.length_cons, List.length_append, List.length_nil]
  rw [hobjlen, hobjlen]
  cases v with
  | arr xs =>
      by_cases hlen : xs.length > 1
      · have hstep : trimStep d k =
            PyDict.set d k (.arr (xs.take (max 1 (xs.length / 2)))) := by
          simp [trimStep, hv, hlen]
        rw [hstep]
        have hm1 : 1 ≤ max 1 (xs.length / 2) := le_max_left _ _
        have hm2 : max 1 (xs.length / 2) < xs.length := by
          have : xs.length / 2 < xs.length := Nat.div_lt_self (by omega) (by omega)
          omega
        have harr := dumpsL_arr_take_lt xs (max 1 (xs.length / 2)) hm1 hm2
        have := dumpsObj_set_length_lt d k (.arr (xs.take (max 1 (xs.length / 2)))) (.arr xs) hv harr
        omega
      · have hstep : trimStep d k = PyDict.del d k := by
          simp [trimStep, hv, hlen]
        rw [hstep]
        have := dumpsObj_del_length_lt d k h
        omega
  | null =>
      have hstep : trimStep d k = PyDict.del d k := by simp [trimStep, hv]
      rw [hstep]
      have := dumpsObj_del_length_lt d k h
      omega
  | bool b =>
      have hstep : trimStep d k = PyDict.del d k := by simp [trimStep, hv]
      rw [hstep]
      have := dumpsObj_del_length_lt d k h
      omega
  | int i =>
      have hstep : trimStep d k = PyDict.del d k := by simp [trimStep, hv]
      rw [hstep]
      have := dumpsObj_del_length_lt d k h
      omega
  | str s =>
      have hstep : trimStep d k = PyDict.del d k := by simp [trimStep, hv]
      rw [hstep]
      have := dumpsObj_del_length_lt d k h
      omega
  | obj fs =>
      have hstep : trimStep d k = PyDict.del d k := by simp [trimStep, hv]
      rw [hstep]
      have := dumpsObj_del_length_lt d k h
      omega

theorem calc_trimStep_le (d : PyDict) (k : String) :
    calculate_context_size (trimStep d k) ≤ calculate_context_size d := by
  cases h : PyDict.hasKey d k with
  | false => rw [trimStep_of_not_hasKey d k h]
  | true =>
      have := trimStep_length_lt d k h
      exact Nat.div_le_div_right (Nat.le_of_lt this)

theorem trimLoop_of_le (max_tokens : Nat) (keys : List String) (d : PyDict)
    (size : Nat) (h : size ≤ max_tokens) :
    trimLoop max_tokens keys d size = d := by
  induction keys with
  | nil => rfl
  | cons key rest ih =>
      simp only [trimLoop]
      rw [if_neg]
      · exact ih
      · intro hc
        exact absurd h (Nat.not_le_of_lt hc.2)

theorem trimLoop_calc_le (max_tokens : Nat) (keys : List String) :
    ∀ d size, size = calculate_context_size d →
    calculate_context_size (trimLoop max_tokens keys d size) ≤ calculate_context_size d := by
  induction keys with
  | nil => intro d size _; exact Nat.le_refl _
  | cons key rest ih =>
      intro d size hsz
      simp only [trimLoop]
      split
      · exact Nat.le_trans (ih (trimStep d key) _ rfl) (calc_trimStep_le d key)
      · exact ih d size hsz

theorem trimLoop_le_or_foldl (max_tokens : Nat) (keys : List String) :
    ∀ d size, size = calculate_context_size d →
    calculate_context_size (trimLoop max_tokens keys d size) ≤ max_tokens ∨
    trimLoop max_tokens keys d size = List.foldl trimStep d keys := by
  induction keys with
  | nil => intro d size _; exact Or.inr rfl
  | cons key rest ih =>
      intro d size hsz
      simp only [trimLoop, List.foldl_cons]
      by_cases hguard : PyDict.hasKey d key = true ∧ size > max_tokens
      · rw [if_pos hguard]
        exact ih (trimStep d key) _ rfl
      · rw [if_neg hguard]
        by_cases hsize : size ≤ max_tokens
        · left
          rw [trimLoop_of_le max_tokens rest d size hsize, ← hsz]
          exact hsize
        · have hkey : PyDict.hasKey d key = false := by
            cases hk : PyDict.hasKey d key with
            | false => rfl
            | true => exact absurd ⟨hk, Nat.lt_of_not_le hsize⟩ hguard
          rcases ih d size hsz with h | h
          · exact Or.inl h
          · right
            rw [h, trimStep_of_not_hasKey d key hkey]

/-- Claim C7 (amended): the mapping returned by `trim_context` has a
serialized token estimate within the budget, unless the single trimming
pass has exhausted every key of the ordered trim list (halving or
dropping each present one exactly once) while still over budget — in
that case the result is exactly the one-pass fold of `trimStep` over
`trim_order` and its estimate may exceed the budget. -/
theorem C7_trim_context_within_budget_or_exhausted (context : PyDict) (max_tokens : Nat) :
    calculate_context_size (trim_context context max_tokens) ≤ max_tokens ∨
    trim_context context max_tokens = List.foldl trimStep context trim_order := by
  unfold trim_context
  by_cases h : calculate_context_size context ≤ max_tokens
  · rw [if_pos h]
    exact Or.inl h
  · rw [if_neg h]
    exact trimLoop_le_or_foldl max_tokens trim_order context _ rfl

/-- Claim C7 as stated is false: `trim_context` does not guarantee the
returned mapping's estimate is within the budget.  The context
`{"a": "xx"}` has estimate `len('{"a": "xx"}') // 4 = 2`; with budget 1
no key of the trim priority list is present, so the context is returned
unchanged with estimate `2 > 1`. -/
theorem C7_trim_context_counterexample :
    ¬ (calculate_context_size (trim_context [("a", Json.str "xx")] 1) ≤ 1) := by
  decide

/-- Claim C8 (amended): `trim_context` terminates (it is a total
function of a single pass over `trim_order`), and each trimming step on
a present key strictly decreases the serialized length of the context —
hence the token estimate `length // 4` never increases, though it need
not strictly decrease at every step. -/
theorem C8_trim_step_strict_length_decrease (d : PyDict) (max_tokens : Nat)
    (key : String) (h : PyDict.hasKey d key = true) :
    (dumpsL (.obj (trimStep d key))).length < (dumpsL (.obj d)).length ∧
    calculate_context_size (trim_context d max_tokens) ≤ calculate_context_size d := by
  refine ⟨trimStep_length_lt d key h, ?_⟩
  unfold trim_context
  by_cases hle : calculate_context_size d ≤ max_tokens
  · rw [if_pos hle]
  · rw [if_neg hle]
    exact trimLoop_calc_le max_tokens trim_order d _ rfl

/-- Witness for `C8_trim_step_strict_length_decrease` at a concrete
context containing an `images` list. -/
theorem C8_trim_step_strict_length_decrease_witness :
    (dumpsL (.obj (trimStep [("images", Json.arr [.int 0, .int 0])] "images"))).length <
      (dumpsL (.obj [("images", Json.arr [.int 0, .int 0])])).length ∧
    calculate_context_size (trim_context [("images", Json.arr [.int 0, .int 0])] 2) ≤
      calculate_context_size [("images", Json.arr [.int 0, .int 0])] :=
  C8_trim_step_strict_length_decrease [("images", Json.arr [.int 0, .int 0])] 2 "images" (by decide)

/-- Claim C8 as stated is false in its strict-decrease part: on the
context `{"images": [0, 0], "a": ""}` with budget 1, the trimming pass
halves the `images` list (a real trimming step taken while the estimate
6 exceeds the budget), yet the size estimate after the step is still
`24 // 4 = 6` — the serialized length shrank by 3 characters, which the
integer division by 4 absorbs. -/
theorem C8_trim_estimate_counterexample :
    PyDict.hasKey [("images", Json.arr [.int 0, .int 0]), ("a", Json.str "")] "images" = true ∧
    calculate_context_size [("images", Json.arr [.int 0, .int 0]), ("a", Json.str "")] = 6 ∧
    trim_context [("images", Json.arr [.int 0, .int 0]), ("a", Json.str "")] 1 =
      trimStep [("images", Json.arr [.int 0, .int 0]), ("a", Json.str "")] "images" ∧
    PyDict.get (trimStep [("images", Json.arr [.int 0, .int 0]), ("a", Json.str "")] "images")
      "images" = some (Json.arr [.int 0]) ∧
    calculate_context_size
      (trimStep [("images", Json.arr [.int 0, .int 0]), ("a", Json.str "")] "images") = 6 :=
  ⟨by decide, by decide, rfl, rfl, by decide⟩

/-! ## Draft repository (`app/db/repositories/draft.py`, `DraftRepository`)

Draft documents in the `drafts` collection carry at most one of the
entity reference fields `scene_id`, `panel_id`, `chapter_id`,
`character_id` (the repository's own queries build filters of the form
`{entity_type}_id`), a `draft_type` string and a `status`.  ObjectIds
become naturals; fields irrelevant to selection (content, metadata,
timestamps) are omitted. -/

/-- Status of a draft (`DraftStatus` in `app/models/models.py`). -/
inductive DraftStatus where
  | pending : DraftStatus
  | selected : DraftStatus
  | rejected : DraftStatus
deriving DecidableEq, Repr

/-- Entity reference fields probed by `select_draft`, in probe order. -/
inductive EntityField where
  | scene : EntityField
  | panel : EntityField
  | chapter : EntityField
  | character : EntityField
deriving DecidableEq, Repr

/-- One document of the `drafts` collection. -/
structure DraftDoc where
  id : Nat
  sceneId : Option Nat := none
  panelId : Option Nat := none
  chapterId : Option Nat := none
  characterId : Option Nat := none
  draftType : String
  status : DraftStatus
deriving DecidableEq, Repr

/-- Value of an entity reference field on a draft document. -/
def fieldVal : EntityField → DraftDoc → Option Nat
  | .scene, d => d.sceneId
  | .panel, d => d.panelId
  | .chapter, d => d.chapterId
  | .character, d => d.characterId

/-- Entity determination loop of `select_draft`: the first field among
`scene_id`, `panel_id`, `chapter_id`, `character_id` that is set on the
draft, together with its value. -/
def entityOf (d : DraftDoc) : Option (EntityField × Nat) :=
  match d.sceneId with
  | some v => some (.scene, v)
  | none =>
    match d.panelId with
    | some v => some (.panel, v)
    | none =>
      match d.chapterId with
      | some v => some (.chapter, v)
      | none =>
        match d.characterId with
        | some v => some (.character, v)
        | none => none

/-- Model of `DraftRepository.update_status`: sets the status of the
draft with the given id (the `$set` also refreshes `updated_at`, so a
matched document always counts as modified). -/
def update_status (db : List DraftDoc) (draftId : Nat) (status : DraftStatus) :
    List DraftDoc × Bool :=
  (db.map (fun x => if x.id = draftId then { x with status := status } else x),
   db.any (fun x => x.id = draftId))

/-- Model of `DraftRepository.select_draft`: loads the draft, determines
its entity reference, rejects every other PENDING draft with the same
entity reference and `draft_type` (the `update_many` filter), then marks
the draft itself SELECTED via `update_status`. -/
def select_draft (db : List DraftDoc) (draftId : Nat) : List DraftDoc × Bool :=
  match db.find? (fun x => x.id = draftId) with
  | none => (db, false)
  | some d =>
      let db1 :=
        match entityOf d with
        | some ef =>
            db.map (fun x =>
              if fieldVal ef.1 x = some ef.2 ∧ x.draftType = d.draftType ∧
                  x.id ≠ draftId ∧ x.status = .pending
              then { x with status := .rejected } else x)
        | none => db
      update_status db1 draftId .selected

/-- Combined per-document effect of `select_draft` on a database in
which the selected draft has entity reference `(et, eid)` and draft
type `dt`: the draft itself becomes SELECTED, its PENDING siblings for
the same `(entity, draft_type)` become REJECTED, everything else is
unchanged. -/
def selUpd (draftId : Nat) (dt : String) (et : EntityField) (eid : Nat)
    (x : DraftDoc) : DraftDoc :=
  if x.id = draftId then { x with status := .selected }
  else if fieldVal et x = some eid ∧ x.draftType = dt ∧ x.status = .pending
  then { x with status := .rejected }
  else x

theorem fieldVal_status_invariant (et : EntityField) (x : DraftDoc) (s : DraftStatus) :
    fieldVal et { x with status := s } = fieldVal et x := by
  cases et <;> rfl

/-- Claim C1 (amended): selecting a draft for entity `E` and kind `K`
sets it to SELECTED and sets every other PENDING draft with the same
`(entity, kind)` to REJECTED, leaving drafts of a different entity or a
different kind (and non-PENDING siblings) unchanged; hence, provided no
sibling was already SELECTED before the call, at most one draft per
`(entity, kind)` is SELECTED afterwards.  (The unconditional "at most
one SELECTED" of the original claim fails because the rejection filter
only touches PENDING siblings — see the counterexample.) -/
theorem C1_select_draft_amended (db : List DraftDoc) (i : Nat) (d : DraftDoc)
    (et : EntityField) (eid : Nat)
    (hfind : db.find? (fun x => x.id = i) = some d)
    (hent : entityOf d = some (et, eid)) :
    (select_draft db i).1 = db.map (selUpd i d.draftType et eid) ∧
    (∀ x, x.id = i → selUpd i d.draftType et eid x = { x with status := .selected }) ∧
    (∀ x, x.id ≠ i → fieldVal et x = some eid → x.draftType = d.draftType →
      x.status = .pending → selUpd i d.draftType et eid x = { x with status := .rejected }) ∧
    (∀ x, x.id ≠ i → (fieldVal et x ≠ some eid ∨ x.draftType ≠ d.draftType) →
      selUpd i d.draftType et eid x = x) ∧
    ((∀ x ∈ db, fieldVal et x = some eid → x.draftType = d.draftType →
        x.id ≠ i → x.status ≠ .selected) →
      ∀ y ∈ (select_draft db i).1, fieldVal et y = some eid →
        y.draftType = d.draftType → y.status = .selected → y.id = i) := by
  have hmap : (select_draft db i).1 = db.map (selUpd i d.draftType et eid) := by
    simp only [select_draft, hfind, hent, update_status]
    rw [List.map_map]
    apply List.map_congr_left
    intro x _
    simp only [Function.comp_apply, selUpd]
    by_cases hid : x.id = i
    · have hrej : (if fieldVal et x = some eid ∧ x.draftType = d.draftType ∧
          x.id ≠ i ∧ x.status = .pending
          then { x with status := DraftStatus.rejected } else x) = x := by
        rw [if_neg]
        intro hc
        exact hc.2.2.1 hid
      rw [hrej, if_pos hid, if_pos hid]
    · by_cases hsib : fieldVal et x = some eid ∧ x.draftType = d.draftType ∧
          x.status = .pending
      · have hrej : (if fieldVal et x = some eid ∧ x.draftType = d.draftType ∧
            x.id ≠ i ∧ x.status = .pending
            then { x with status := DraftStatus.rejected } else x) =
            { x with status := DraftStatus.rejected } := by
          rw [if_pos ⟨hsib.1, hsib.2.1, hid, hsib.2.2⟩]
        rw [hrej, if_neg hid, if_neg hid, if_pos hsib]
      · have hrej : (if fieldVal et x = some eid ∧ x.draftType = d.draftType ∧
            x.id ≠ i ∧ x.status = .pending
            then { x with status := DraftStatus.rejected } else x) = x := by
          rw [if_neg]
          intro hc
          exact hsib ⟨hc.1, hc.2.1, hc.2.2.2⟩
        rw [hrej, if_neg hid, if_neg hid, if_neg hsib]
  refine ⟨hmap, ?_, ?_, ?_, ?_⟩
  · intro x hx
    simp [selUpd, hx]
  · intro x hx1 hx2 hx3 hx4
    simp only [selUpd, if_neg hx1]
    rw [if_pos ⟨hx2, hx3, hx4⟩]
  · intro x hx1 hx2
    simp only [selUpd, if_neg hx1]
    rw [if_neg]
    intro hc
    rcases hx2 with h | h
    · exact h hc.1
    · exact h hc.2.1
  · intro hno y hy hyf hyt hys
    rw [hmap] at hy
    rcases List.mem_map.mp hy with ⟨x, hxmem, hxeq⟩
    by_cases hid : x.id = i
    · rw [← hxeq]
      simp [selUpd, hid]
    · by_cases hsib : fieldVal et x = some eid ∧ x.draftType = d.draftType ∧
          x.status = .pending
      · exfalso
        have : y = { x with status := .rejected } := by
          rw [← hxeq]
          simp only [selUpd, if_neg hid]
          rw [if_pos hsib]
        rw [this] at hys
        simp at hys
      · have hyx : y = x := by
          rw [← hxeq]
          simp only [selUpd, if_neg hid]
          rw [if_neg hsib]
        rw [hyx] at hyf hyt hys
        exact absurd hys (hno x hxmem hyf hyt hid)

/-- Witness for `C1_select_draft_amended`: a concrete database with one
pending sibling and one unrelated draft. -/
theorem C1_select_draft_amended_witness :
    ([⟨1, some 7, none, none, none, "scene_summary", .pending⟩,
      ⟨2, some 7, none, none, none, "scene_summary", .pending⟩,
      ⟨3, some 8, none, none, none, "scene_summary", .pending⟩] :
        List DraftDoc).find? (fun x => x.id = 1) =
      some ⟨1, some 7, none, none, none, "scene_summary", .pending⟩ ∧
    (select_draft
      [⟨1, some 7, none, none, none, "scene_summary", .pending⟩,
       ⟨2, some 7, none, none, none, "scene_summary", .pending⟩,
       ⟨3, some 8, none, none, none, "scene_summary", .pending⟩] 1).1 =
      ([⟨1, some 7, none, none, none, "scene_summary", .pending⟩,
        ⟨2, some 7, none, none, none, "scene_summary", .pending⟩,
        ⟨3, some 8, none, none, none, "scene_summary", .pending⟩] :
          List DraftDoc).map (selUpd 1 "scene_summary" .scene 7) :=
  ⟨by decide,
   (C1_select_draft_amended
      [⟨1, some 7, none, none, none, "scene_summary", .pending⟩,
       ⟨2, some 7, none, none, none, "scene_summary", .pending⟩,
       ⟨3, some 8, none, none, none, "scene_summary", .pending⟩]
      1 ⟨1, some 7, none, none, none, "scene_summary", .pending⟩ .scene 7
      (by decide) (by decide)).1⟩

/-- Claim C1's final clause is false as stated: selecting a draft does
not reject an already-SELECTED sibling (the `update_many` filter
matches only PENDING drafts), so two drafts for the same
`(entity, kind)` can be SELECTED at once.  Concretely, with draft 1
already SELECTED and draft 2 PENDING for the same scene 7 and kind,
selecting draft 2 leaves both SELECTED. -/
theorem C1_select_draft_counterexample :
    ¬ (((select_draft
        [⟨1, some 7, none, none, none, "scene_summary", .selected⟩,
         ⟨2, some 7, none, none, none, "scene_summary", .pending⟩] 2).1.countP
          (fun x => decide (x.sceneId = some 7 ∧ x.draftType = "scene_summary" ∧
            x.status = .selected))) ≤ 1) := by
  decide

/-! ## Generation task base class
(`app/services/llm_tasks/base.py`, `BaseTask`)

The task's database effects are modelled on a `TaskDB` holding the
`generations` and `drafts` collections; MongoDB ObjectIds become
sequential naturals drawn from `nextId`.  The LLM capability is a
function from attempt index to a result (`Except` models raised
exceptions), per variant.  Prompt construction is folded into the
per-variant capability function; parsed outputs are opaque strings. -/

/-- Status values of a Generation record (`GenerationStatus`). -/
inductive GenStatus where
  | queued : GenStatus
  | processing : GenStatus
  | completed : GenStatus
  | failed : GenStatus
deriving DecidableEq, Repr

/-- One document of the `generations` collection.  `retryCount` models
the `retry_count` field of the `Generation` model (default 0); the task
never writes it — only `GenerationRepository.retry_failed` increments
it. -/
structure GenRec where
  id : Nat
  status : GenStatus
  errorMessage : Option String := none
  resultIds : List Nat := []
  retryCount : Nat := 0
deriving DecidableEq, Repr

/-- One document of the `drafts` collection as written by
`BaseTask.create_drafts`: status `pending` and the variant index kept
in `generation_params`. -/
structure DraftRec where
  id : Nat
  status : DraftStatus
  variantIndex : Nat
  content : String
deriving DecidableEq, Repr

/-- The database state a task reads and writes. -/
structure TaskDB where
  gens : List GenRec := []
  drafts : List DraftRec := []
  nextId : Nat := 0
deriving DecidableEq, Repr

/-- Effect of `insert_one` on the `generations` collection. -/
def TaskDB.insertGen (db : TaskDB) (status : GenStatus) : TaskDB × Nat :=
  let g : GenRec := { id := db.nextId, status := status }
  ({ db with
      gens := db.gens ++ [g]
      nextId := db.nextId + 1 }, db.nextId)

/-- Model of `BaseTask.update_generation_status`: a `$set` on the
generation's status; the error message is written only when an error is
given, and `result_ids` only when the given list is non-empty (the
Python code guards both with truthiness checks). -/
def TaskDB.updateGen (db : TaskDB) (gid : Nat) (status : GenStatus)
    (error : Option String) (result_ids : List Nat) : TaskDB :=
  { db with gens := db.gens.map (fun g =>
      if g.id = gid then
        { g with
            status := status
            errorMessage := match error with | some e => some e | none => g.errorMessage
            resultIds := if result_ids.isEmpty then g.resultIds else result_ids }
      else g) }

/-- Effect of `insert_one` on the `drafts` collection for one draft
built by `BaseTask.create_drafts`. -/
def TaskDB.insertDraft (db : TaskDB) (variant_index : Nat) (content : String) :
    TaskDB × Nat :=
  let d : DraftRec :=
    { id := db.nextId, status := .pending, variantIndex := variant_index,
      content := content }
  ({ db with
      drafts := db.drafts ++ [d]
      nextId := db.nextId + 1 }, db.nextId)

/-- Result of one attempt loop of `generate_with_retry`: the returned
or raised value, the number of LLM calls made, and the backoff sleeps
performed (in seconds, in order). -/
structure RetryResult where
  result : Except String String
  calls : Nat
  sleeps : List Nat
deriving Repr

/-- Attempt loop of `BaseTask.generate_with_retry`
(`for attempt in range(max_retries)`), indexed by the remaining number
of loop iterations so that the recursion is structural: on an
exception the loop sleeps `2 ** attempt` seconds when further attempts
remain and retries; after the last attempt it raises
`"Generation failed after {max_retries} attempts: {last_error}"`. -/
def gwrGo (llm : Nat → Except String String) (max_retries : Nat) :
    Nat → Nat → Option String → RetryResult
  | 0, _, last_error =>
      ⟨.error ("Generation failed after " ++ toString max_retries ++ " attempts: " ++
        Option.getD last_error "None"), 0, []⟩
  | rem + 1, attempt, _ =>
      match llm attempt with
      | .ok r => ⟨.ok r, 1, []⟩
      | .error e =>
          let rest := gwrGo llm max_retries rem (attempt + 1) (some e)
          ⟨rest.result, rest.calls + 1,
            (if attempt < max_retries - 1 then [2 ^ attempt] else []) ++ rest.sleeps⟩

/-- Model of `BaseTask.generate_with_retry` with its default
`max_retries = 3`.  Every exception from the capability is caught by
the generic `except Exception` handler and retried — the code never
distinguishes authentication errors. -/
def generate_with_retry (llm : Nat → Except String String)
    (max_retries : Nat := 3) : RetryResult :=
  gwrGo llm max_retries max_retries 0 none

/-- The task as scheduled: variant count, data fetch, the per-variant
LLM capability (variant index → attempt index → result), output
parsing, and the quality validation hook (default: always true). -/
structure TaskSpec where
  numVariants : Nat := 1
  fetchData : Except String Unit := .ok ()
  llm : Nat → Nat → Except String String
  parse : String → Except String String
  validate : String → Bool := fun _ => true

/-- Variant loop of `BaseTask.execute`: for each variant index in
order, generate with retry, parse, and keep the parsed output when the
validation hook accepts it (a rejected variant is dropped without
aborting); any raised exception aborts the loop. -/
def collectOutputs (t : TaskSpec) : List Nat → Except String (List String)
  | [] => .ok []
  | v :: rest =>
      match (generate_with_retry (t.llm v)).result with
      | .error e => .error e
      | .ok raw =>
          match t.parse raw with
          | .error e => .error e
          | .ok parsed =>
              match collectOutputs t rest with
              | .error e => .error e
              | .ok outs => .ok (if t.validate parsed then parsed :: outs else outs)

/-- Recursion of `BaseTask.create_drafts` over `enumerate(outputs)`:
inserts one PENDING draft per output, its position recorded as
`variant_index`, and collects the inserted ids in order. -/
def create_drafts_go (db : TaskDB) : List (Nat × String) → TaskDB × List Nat
  | [] => (db, [])
  | (i, o) :: rest =>
      let p := db.insertDraft i o
      let q := create_drafts_go p.1 rest
      (q.1, p.2 :: q.2)

/-- Model of `BaseTask.create_drafts`. -/
def create_drafts (db : TaskDB) (outputs : List String) : TaskDB × List Nat :=
  create_drafts_go db outputs.enum

/-- Model of `TaskResult` as returned by `BaseTask.execute`. -/
structure TaskResultM where
  success : Bool
  draft_ids : List Nat := []
  generation_id : Option Nat := none
  error : Option String := none
deriving DecidableEq, Repr

/-- Model of `BaseTask.execute`: creates a Generation record (QUEUED),
sets it PROCESSING, fetches data, runs the variant loop, fails the
Generation on any exception or when no variant produced valid output,
and otherwise persists one PENDING draft per output and marks the
Generation COMPLETED with the draft id list. -/
def execute (t : TaskSpec) (db : TaskDB) : TaskDB × TaskResultM :=
  let p := db.insertGen .queued
  let gid := p.2
  let db2 := p.1.updateGen gid .processing none []
  match t.fetchData with
  | .error e =>
      (db2.updateGen gid .failed (some e) [],
       { success := false, generation_id := some gid, error := some e })
  | .ok _ =>
      match collectOutputs t (List.range t.numVariants) with
      | .error e =>
          (db2.updateGen gid .failed (some e) [],
           { success := false, generation_id := some gid, error := some e })
      | .ok outputs =>
          if outputs.isEmpty then
            (db2.updateGen gid .failed (some "No valid outputs generated") [],
             { success := false, generation_id := some gid,
               error := some "No valid outputs generated" })
          else
            let q := create_drafts db2 outputs
            (q.1.updateGen gid .completed none q.2,
             { success := true, draft_ids := q.2, generation_id := some gid })

/-- Model of `TaskExecutor.submit_task` with `execute_immediately=True`
(`app/services/llm_tasks/executor.py`): after resolving the task class,
it eagerly calls `task.create_generation_record()` and returns that
generation id to the caller; execution then runs `task.execute()`,
which creates its own Generation record again.  Returns the final
database, the generation id handed to the caller, and the task
result. -/
def submit_task (t : TaskSpec) (db : TaskDB) : TaskDB × Nat × TaskResultM :=
  let p := db.insertGen .queued
  let q := execute t p.1
  (q.1, p.2, q.2)

/-! ### Task execution lemmas -/

theorem gwr_ok0 (llm : Nat → Except String String) (r : String)
    (h : llm 0 = .ok r) : generate_with_retry llm 3 = ⟨.ok r, 1, []⟩ := by
  simp [generate_with_retry, gwrGo, h]

theorem gwr_allfail (llm : Nat → Except String String) (e : Nat → String)
    (h : ∀ a, llm a = .error (e a)) :
    generate_with_retry llm 3 =
      ⟨.error ("Generation failed after 3 attempts: " ++ e 2), 3, [1, 2]⟩ := by
  simp only [generate_with_retry, gwrGo, h 0, h 1, h 2]
  norm_num
  rfl

theorem collectOutputs_ok (t : TaskSpec) (raw : Nat → String) (pf : String → String)
    (hllm : ∀ v, t.llm v 0 = .ok (raw v))
    (hparse : ∀ s, t.parse s = .ok (pf s))
    (hval : ∀ s, t.validate s = true) :
    ∀ vars, collectOutputs t vars = .ok (vars.map (fun v => pf (raw v))) := by
  intro vars
  induction vars with
  | nil => rfl
  | cons v rest ih =>
      simp only [collectOutputs, gwr_ok0 (t.llm v) (raw v) (hllm v), hparse, ih,
        hval, List.map_cons, if_pos]

theorem collectOutputs_fail0 (t : TaskSpec) (e : Nat → Nat → String)
    (hllm : ∀ v a, t.llm v a = .error (e v a)) (rest : List Nat) :
    collectOutputs t (0 :: rest) =
      .error ("Generation failed after 3 attempts: " ++ e 0 2) := by
  simp only [collectOutputs, gwr_allfail (t.llm 0) (e 0) (hllm 0)]

/-- Drafts inserted by `create_drafts` for enumerated outputs, starting
at a given next id. -/
def buildDrafts : Nat → List (Nat × String) → List DraftRec
  | _, [] => []
  | n, (i, o) :: rest =>
      { id := n, status := .pending, variantIndex := i, content := o } ::
        buildDrafts (n + 1) rest

theorem create_drafts_go_eq : ∀ (l : List (Nat × String)) (db : TaskDB),
    create_drafts_go db l =
      ({ db with
          drafts := db.drafts ++ buildDrafts db.nextId l
          nextId := db.nextId + l.length },
       List.range' db.nextId l.length) := by
  intro l
  induction l with
  | nil => intro db; simp [create_drafts_go, buildDrafts, List.range']
  | cons p rest ih =>
      intro db
      cases p with
      | mk i o =>
          simp only [create_drafts_go, TaskDB.insertDraft, ih, buildDrafts, List.range',
            List.length_cons, List.append_assoc, List.singleton_append,
            Nat.add_assoc, Nat.add_comm 1 rest.length]

theorem buildDrafts_map_variantIndex : ∀ (l : List (Nat × String)) (n : Nat),
    (buildDrafts n l).map (fun x => x.variantIndex) = l.map Prod.fst := by
  intro l
  induction l with
  | nil => intro n; rfl
  | cons p rest ih =>
      intro n
      cases p with
      | mk i o => simp [buildDrafts, ih]

theorem buildDrafts_map_id : ∀ (l : List (Nat × String)) (n : Nat),
    (buildDrafts n l).map (fun x => x.id) = List.range' n l.length := by
  intro l
  induction l with
  | nil => intro n; rfl
  | cons p rest ih =>
      intro n
      cases p with
      | mk i o => simp [buildDrafts, ih, List.range']

theorem buildDrafts_status : ∀ (l : List (Nat × String)) (n : Nat),
    ∀ x ∈ buildDrafts n l, x.status = DraftStatus.pending := by
  intro l
  induction l with
  | nil => intro n x hx; simp [buildDrafts] at hx
  | cons p rest ih =>
      intro n x hx
      cases p with
      | mk i o =>
          simp only [buildDrafts, List.mem_cons] at hx
          rcases hx with h | h
          · rw [h]
          · exact ih (n + 1) x h

theorem buildDrafts_length : ∀ (l : List (Nat × String)) (n : Nat),
    (buildDrafts n l).length = l.length := by
  intro l
  induction l with
  | nil => intro n; rfl
  | cons p rest ih =>
      intro n
      cases p with
      | mk i o => simp [buildDrafts, ih]

theorem map_updIf_of_ne (n : Nat) (f : GenRec → GenRec) :
    ∀ gens : List GenRec, (∀ g ∈ gens, g.id ≠ n) →
    gens.map (fun g => if g.id = n then f g else g) = gens := by
  intro gens
  induction gens with
  | nil => intro _; rfl
  | cons g rest ih =>
      intro hw
      simp only [List.map_cons]
      rw [if_neg (hw g (List.mem_cons_self g rest)),
        ih (fun x hx => hw x (List.mem_cons_of_mem g hx))]

theorem updateGen_append_fresh (gens : List GenRec) (dr : List DraftRec)
    (ni n : Nat) (st : GenStatus) (em : Option String) (ri : List Nat) (rc : Nat)
    (st' : GenStatus) (err : Option String) (rid : List Nat)
    (hw : ∀ g ∈ gens, g.id ≠ n) :
    TaskDB.updateGen ⟨gens ++ [⟨n, st, em, ri, rc⟩], dr, ni⟩ n st' err rid =
      ⟨gens ++ [⟨n, st',
        (match err with | some e => some e | none => em),
        (if rid.isEmpty then ri else rid), rc⟩], dr, ni⟩ := by
  simp only [TaskDB.updateGen, List.map_append, List.map_cons, List.map_nil]
  rw [map_updIf_of_ne n _ gens hw]
  simp

theorem execute_success (t : TaskSpec) (db : TaskDB) (raw : Nat → String)
    (pf : String → String)
    (hN : 1 ≤ t.numVariants)
    (hwfg : ∀ g ∈ db.gens, g.id < db.nextId)
    (hfetch : t.fetchData = .ok ())
    (hllm : ∀ v, t.llm v 0 = .ok (raw v))
    (hparse : ∀ s, t.parse s = .ok (pf s))
    (hval : ∀ s, t.validate s = true) :
    execute t db =
      ({ gens := db.gens ++ [⟨db.nextId, .completed, none,
            List.range' (db.nextId + 1) t.numVariants, 0⟩]
         drafts := db.drafts ++ buildDrafts (db.nextId + 1)
            (((List.range t.numVariants).map (fun v => pf (raw v))).enum)
         nextId := db.nextId + 1 + t.numVariants },
       { success := true
         draft_ids := List.range' (db.nextId + 1) t.numVariants
         generation_id := some db.nextId
         error := none }) := by
  have hw : ∀ g ∈ db.gens, g.id ≠ db.nextId :=
    fun g hg => Nat.ne_of_lt (hwfg g hg)
  have houts := collectOutputs_ok t raw pf hllm hparse hval (List.range t.numVariants)
  have houtlen : ((List.range t.numVariants).map (fun v => pf (raw v))).length
      = t.numVariants := by
    rw [List.length_map, List.length_range]
  have houtne : ((List.range t.numVariants).map (fun v => pf (raw v))).isEmpty = false := by
    cases hc : (List.range t.numVariants).map (fun v => pf (raw v)) with
    | nil =>
        rw [hc] at houtlen
        simp at houtlen
        omega
    | cons a l => rfl
  simp only [execute, TaskDB.insertGen, hfetch, houts, houtne]
  rw [updateGen_append_fresh db.gens db.drafts (db.nextId + 1) db.nextId
    .queued none [] 0 .processing none [] hw]
  simp only [Bool.false_eq_true, if_false, List.isEmpty_nil, if_true, create_drafts,
    create_drafts_go_eq]
  rw [List.enum_length, houtlen]
  rw [updateGen_append_fresh db.gens (db.drafts ++ buildDrafts (db.nextId + 1)
      (((List.range t.numVariants).map (fun v => pf (raw v))).enum))
    (db.nextId + 1 + t.numVariants) db.nextId
    .processing none [] 0 .completed none (List.range' (db.nextId + 1) t.numVariants) hw]
  have hrne : (List.range' (db.nextId + 1) t.numVariants).isEmpty = false := by
    cases hc : List.range' (db.nextId + 1) t.numVariants with
    | nil =>
        have := congrArg List.length hc
        rw [List.length_range'] at this
        simp at this
        omega
    | cons a l => rfl
  rw [hrne]
  simp

theorem execute_allfail (t : TaskSpec) (db : TaskDB) (e : Nat → Nat → String)
    (hN : 1 ≤ t.numVariants)
    (hwfg : ∀ g ∈ db.gens, g.id < db.nextId)
    (hfetch : t.fetchData = .ok ())
    (hllm : ∀ v a, t.llm v a = .error (e v a)) :
    execute t db =
      ({ gens := db.gens ++ [⟨db.nextId, .failed,
            some ("Generation failed after 3 attempts: " ++ e 0 2), [], 0⟩]
         drafts := db.drafts
         nextId := db.nextId + 1 },
       { success := false
         generation_id := some db.nextId
         error := some ("Generation failed after 3 attempts: " ++ e 0 2) }) := by
  have hw : ∀ g ∈ db.gens, g.id ≠ db.nextId :=
    fun g hg => Nat.ne_of_lt (hwfg g hg)
  obtain ⟨M, hM⟩ : ∃ M, t.numVariants = M + 1 := ⟨t.numVariants - 1, by omega⟩
  have hrange : List.range t.numVariants = 0 :: List.range' 1 M := by
    rw [hM, List.range_eq_range']
    rfl
  have hcoll := collectOutputs_fail0 t e hllm (List.range' 1 M)
  simp only [execute, TaskDB.insertGen, hfetch, hrange, hcoll]
  rw [updateGen_append_fresh db.gens db.drafts (db.nextId + 1) db.nextId
    .queued none [] 0 .processing none [] hw]
  simp only [List.isEmpty_nil, if_true]
  rw [updateGen_append_fresh db.gens db.drafts (db.nextId + 1) db.nextId
    .processing none [] 0 .failed
    (some ("Generation failed after 3 attempts: " ++ e 0 2)) [] hw]
  simp

/-! ### Claims C2, C3, C5, C6 -/

/-- Claim C2 (confirmed): for every task with `num_variants = N ≥ 1`,
a provider that succeeds on the first attempt of every variant, a
parser that succeeds, and the default validation hook (always true),
`execute` creates exactly `N` Draft records, each with status PENDING
and a distinct `variant_index` running `0..N-1` in its generation
parameters, and marks the (single created) Generation COMPLETED with
the list of created draft ids; the returned `TaskResult` is successful
and carries those ids. -/
theorem C2_execute_creates_N_pending_drafts (t : TaskSpec) (db : TaskDB)
    (raw : Nat → String) (pf : String → String)
    (hN : 1 ≤ t.numVariants)
    (hwfg : ∀ g ∈ db.gens, g.id < db.nextId)
    (hfetch : t.fetchData = .ok ())
    (hllm : ∀ v, t.llm v 0 = .ok (raw v))
    (hparse : ∀ s, t.parse s = .ok (pf s))
    (hval : ∀ s, t.validate s = true) :
    ((execute t db).1.drafts.drop db.drafts.length).map (fun x => x.variantIndex) =
        List.range t.numVariants ∧
    (∀ x ∈ (execute t db).1.drafts.drop db.drafts.length,
        x.status = DraftStatus.pending) ∧
    (execute t db).1.drafts.length = db.drafts.length + t.numVariants ∧
    (execute t db).1.gens = db.gens ++ [⟨db.nextId, .completed, none,
        ((execute t db).1.drafts.drop db.drafts.length).map (fun x => x.id), 0⟩] ∧
    (execute t db).2 = {
        success := true
        draft_ids := ((execute t db).1.drafts.drop db.drafts.length).map (fun x => x.id)
        generation_id := some db.nextId
        error := none } := by
  have hex := execute_success t db raw pf hN hwfg hfetch hllm hparse hval
  have houtlen : ((List.range t.numVariants).map (fun v => pf (raw v))).length
      = t.numVariants := by
    rw [List.length_map, List.length_range]
  have hdrop : (execute t db).1.drafts.drop db.drafts.length =
      buildDrafts (db.nextId + 1)
        (((List.range t.numVariants).map (fun v => pf (raw v))).enum) := by
    rw [hex]
    exact List.drop_left _ _
  have hids : ((execute t db).1.drafts.drop db.drafts.length).map (fun x => x.id) =
      List.range' (db.nextId + 1) t.numVariants := by
    rw [hdrop, buildDrafts_map_id, List.enum_length, houtlen]
  refine ⟨?_, ?_, ?_, ?_, ?_⟩
  · rw [hdrop, buildDrafts_map_variantIndex, List.enum_map_fst, houtlen]
  · intro x hx
    rw [hdrop] at hx
    exact buildDrafts_status _ _ x hx
  · rw [hex]
    simp only [List.length_append, buildDrafts_length, List.enum_length, houtlen]
  · rw [hids, hex]
  · rw [hids, hex]

/-- Witness for `C2_execute_creates_N_pending_drafts` at `N = 2` on an
empty database. -/
theorem C2_execute_creates_N_pending_drafts_witness :
    ((execute ⟨2, .ok (), fun _ _ => .ok "r", fun _ => .ok "p", fun _ => true⟩
        ⟨[], [], 0⟩).1.drafts.drop 0).map (fun x => x.variantIndex) = List.range 2 ∧
    (∀ x ∈ (execute ⟨2, .ok (), fun _ _ => .ok "r", fun _ => .ok "p", fun _ => true⟩
        ⟨[], [], 0⟩).1.drafts.drop 0, x.status = DraftStatus.pending) ∧
    (execute ⟨2, .ok (), fun _ _ => .ok "r", fun _ => .ok "p", fun _ => true⟩
        ⟨[], [], 0⟩).1.drafts.length = 0 + 2 ∧
    (execute ⟨2, .ok (), fun _ _ => .ok "r", fun _ => .ok "p", fun _ => true⟩
        ⟨[], [], 0⟩).1.gens = [] ++ [⟨0, .completed, none,
        ((execute ⟨2, .ok (), fun _ _ => .ok "r", fun _ => .ok "p", fun _ => true⟩
          ⟨[], [], 0⟩).1.drafts.drop 0).map (fun x => x.id), 0⟩] ∧
    (execute ⟨2, .ok (), fun _ _ => .ok "r", fun _ => .ok "p", fun _ => true⟩
        ⟨[], [], 0⟩).2 = {
        success := true
        draft_ids := ((execute ⟨2, .ok (), fun _ _ => .ok "r", fun _ => .ok "p",
            fun _ => true⟩ ⟨[], [], 0⟩).1.drafts.drop 0).map (fun x => x.id)
        generation_id := some 0
        error := none } :=
  C2_execute_creates_N_pending_drafts
    ⟨2, .ok (), fun _ _ => .ok "r", fun _ => .ok "p", fun _ => true⟩
    ⟨[], [], 0⟩ (fun _ => "r") (fun _ => "p")
    (by decide) (by intro g hg; simp at hg) rfl (fun _ => rfl) (fun _ => rfl)
    (fun _ => rfl)

/-- Claim C3 is violated by the code: submitting a task through the
executor inserts TWO Generation records, not one.  `submit_task` calls
`task.create_generation_record()` eagerly (returning that record's id
to the caller), and `task.execute()` then calls
`create_generation_record()` again; only the second record is updated
to PROCESSING and then COMPLETED/FAILED, while the record whose id the
caller received stays QUEUED forever.  Evaluated at a one-variant task
that succeeds, on an empty database: two generation records exist, the
returned id 0 names the QUEUED one, and the task result references the
duplicate id 1. -/
theorem C3_submit_task_inserts_two_generations :
    (submit_task ⟨1, .ok (), fun _ _ => .ok "out", fun s => .ok s, fun _ => true⟩
        ⟨[], [], 0⟩).1.gens =
      [⟨0, .queued, none, [], 0⟩, ⟨1, .completed, none, [2], 0⟩] ∧
    (submit_task ⟨1, .ok (), fun _ _ => .ok "out", fun s => .ok s, fun _ => true⟩
        ⟨[], [], 0⟩).2.1 = 0 ∧
    (submit_task ⟨1, .ok (), fun _ _ => .ok "out", fun s => .ok s, fun _ => true⟩
        ⟨[], [], 0⟩).2.2.generation_id = some 1 :=
  ⟨rfl, rfl, rfl⟩

/-- Claim C5 (amended): if the LLM capability raises on every attempt,
`generate_with_retry` makes exactly 3 attempts for the variant,
sleeping `2^attempt` seconds between consecutive failures (1s after
attempt 0, 2s after attempt 1, none after the last), and the task's
Generation record ends FAILED carrying the last error inside the
message `"Generation failed after 3 attempts: …"`, with zero Draft
records created — but the Generation's `retry_count` field is never
updated and remains 0; it does not reflect the 3 attempts. -/
theorem C5_generation_fails_after_three_attempts (t : TaskSpec) (db : TaskDB)
    (e : Nat → Nat → String)
    (hN : 1 ≤ t.numVariants)
    (hwfg : ∀ g ∈ db.gens, g.id < db.nextId)
    (hfetch : t.fetchData = .ok ())
    (hllm : ∀ v a, t.llm v a = .error (e v a)) :
    generate_with_retry (t.llm 0) 3 =
      ⟨.error ("Generation failed after 3 attempts: " ++ e 0 2), 3, [1, 2]⟩ ∧
    (execute t db).1.drafts = db.drafts ∧
    (execute t db).1.gens = db.gens ++ [⟨db.nextId, .failed,
        some ("Generation failed after 3 attempts: " ++ e 0 2), [], 0⟩] ∧
    (execute t db).2 = {
        success := false
        generation_id := some db.nextId
        error := some ("Generation failed after 3 attempts: " ++ e 0 2) } := by
  have hex := execute_allfail t db e hN hwfg hfetch hllm
  refine ⟨gwr_allfail (t.llm 0) (e 0) (hllm 0), ?_, ?_, ?_⟩
  · rw [hex]
  · rw [hex]
  · rw [hex]

/-- Witness for `C5_generation_fails_after_three_attempts` at a
concrete always-failing task on an empty database. -/
theorem C5_generation_fails_after_three_attempts_witness :
    generate_with_retry
        ((⟨1, .ok (), fun _ _ => .error "boom", fun s => .ok s, fun _ => true⟩ :
          TaskSpec).llm 0) 3 =
      ⟨.error ("Generation failed after 3 attempts: " ++ "boom"), 3, [1, 2]⟩ ∧
    (execute ⟨1, .ok (), fun _ _ => .error "boom", fun s => .ok s, fun _ => true⟩
        ⟨[], [], 0⟩).1.drafts = [] ∧
    (execute ⟨1, .ok (), fun _ _ => .error "boom", fun s => .ok s, fun _ => true⟩
        ⟨[], [], 0⟩).1.gens = [] ++ [⟨0, .failed,
        some ("Generation failed after 3 attempts: " ++ "boom"), [], 0⟩] ∧
    (execute ⟨1, .ok (), fun _ _ => .error "boom", fun s => .ok s, fun _ => true⟩
        ⟨[], [], 0⟩).2 = {
        success := false
        generation_id := some 0
        error := some ("Generation failed after 3 attempts: " ++ "boom") } :=
  C5_generation_fails_after_three_attempts
    ⟨1, .ok (), fun _ _ => .error "boom", fun s => .ok s, fun _ => true⟩
    ⟨[], [], 0⟩ (fun _ _ => "boom") (by decide) (by intro g hg; simp at hg) rfl
    (fun _ _ => rfl)

/-- Claim C5's "retry count reflecting the 3 attempts" is false: after
an always-failing execution the persisted Generation is FAILED but its
`retry_count` field is 0, not 3 — `update_generation_status` never
touches `retry_count` (only `GenerationRepository.retry_failed`
increments it, on manual retry). -/
theorem C5_retry_count_counterexample :
    ((execute ⟨1, .ok (), fun _ _ => .error "boom", fun s => .ok s, fun _ => true⟩
        ⟨[], [], 0⟩).1.gens.map (fun g => (g.status, g.retryCount))) =
      [(.failed, 0)] ∧
    ¬ (((execute ⟨1, .ok (), fun _ _ => .error "boom", fun s => .ok s, fun _ => true⟩
        ⟨[], [], 0⟩).1.gens.map (fun g => g.retryCount)) = [3]) :=
  ⟨rfl, by decide⟩

/-- Claim C6 (amended): authentication and configuration errors from
the LLM capability are retried exactly like any other exception — the
`except Exception` handler in `generate_with_retry` does not
distinguish them.  A capability that raises the same error on every
attempt (auth errors included) is called 3 times with backoff sleeps of
1s and 2s in between, and the failure is surfaced only after the last
attempt, not immediately. -/
theorem C6_every_error_retried (llm : Nat → Except String String) (e : Nat → String)
    (h : ∀ a, llm a = .error (e a)) :
    (generate_with_retry llm 3).calls = 3 ∧
    (generate_with_retry llm 3).sleeps = [1, 2] ∧
    (generate_with_retry llm 3).result =
      .error ("Generation failed after 3 attempts: " ++ e 2) := by
  rw [gwr_allfail llm e h]
  exact ⟨rfl, rfl, rfl⟩

/-- Witness for `C6_every_error_retried` at a capability that always
raises an authentication error. -/
theorem C6_every_error_retried_witness :
    (generate_with_retry (fun _ => .error "Authentication failed: bad key") 3).calls = 3 ∧
    (generate_with_retry (fun _ => .error "Authentication failed: bad key") 3).sleeps = [1, 2] ∧
    (generate_with_retry (fun _ => .error "Authentication failed: bad key") 3).result =
      .error ("Generation failed after 3 attempts: " ++ "Authentication failed: bad key") :=
  C6_every_error_retried (fun _ => .error "Authentication failed: bad key")
    (fun _ => "Authentication failed: bad key") (fun _ => rfl)

/-- Claim C6 as stated is false: an authentication error does NOT fail
fast.  With a capability raising `"Authentication failed: bad key"` on
every attempt, `generate_with_retry` makes 3 calls (not 1) and performs
backoff sleeps (the sleep list is not empty). -/
theorem C6_auth_fail_fast_counterexample :
    (generate_with_retry (fun _ => .error "Authentication failed: bad key") 3).calls = 3 ∧
    ¬ ((generate_with_retry
        (fun _ => .error "Authentication failed: bad key") 3).sleeps = []) :=
  ⟨rfl, by decide⟩

/-! ## Task executor scheduling
(`app/services/llm_tasks/executor.py`, `TaskExecutor`)

The cooperative scheduler is modelled as a state machine over explicit
events.  `submit` (backlog mode) appends to the queue, re-sorts it
stably by priority (descending), and schedules one `_process_queue`
coroutine via `asyncio.create_task` — counted in `pendingDrains`.
`drain` runs one such pending coroutine.  `complete` is the done
callback of an in-flight task: it only removes the task from
`active_tasks` — the code schedules no further `_process_queue` run on
completion. -/

/-- Scheduler state of the executor: the priority backlog of
(priority value, generation id), the in-flight id set, the number of
created-but-not-yet-run `_process_queue` coroutines, the launch order
so far, and `max_concurrent`. -/
structure ExecState where
  queue : List (Nat × Nat) := []
  active : List Nat := []
  pendingDrains : Nat := 0
  launched : List Nat := []
  maxConcurrent : Nat := 3
deriving DecidableEq, Repr

/-- Stable insertion for a descending sort by priority value: an
element goes after every element with priority greater or equal, so
arrival order is preserved on ties, as Python's stable
`sorted(queue, key=lambda x: x[0], reverse=True)`. -/
def insertDesc (x : Nat × Nat) : List (Nat × Nat) → List (Nat × Nat)
  | [] => [x]
  | y :: rest => if x.1 ≥ y.1 then x :: y :: rest else y :: insertDesc x rest

/-- Stable descending sort by priority value (insertion sort;
agrees with Python's stable sort under `reverse=True`). -/
def sortDesc (l : List (Nat × Nat)) : List (Nat × Nat) :=
  l.foldr insertDesc []

/-- Events the executor reacts to. -/
inductive ExecEv where
  | submit : Nat → Nat → ExecEv
  | drain : ExecEv
  | complete : Nat → ExecEv
deriving DecidableEq, Repr

/-- While-loop of `_process_queue`: while fewer than `max_concurrent`
tasks are in flight and the queue is non-empty, pop the leftmost
(highest-priority) entry and launch it.  The fuel is the queue length,
which bounds the iterations. -/
def drainLoop : Nat → ExecState → ExecState
  | 0, s => s
  | fuel + 1, s =>
      if s.active.length < s.maxConcurrent then
        match s.queue with
        | [] => s
        | (_, gid) :: rest =>
            drainLoop fuel { s with
              queue := rest
              active := s.active ++ [gid]
              launched := s.launched ++ [gid] }
      else s

/-- One scheduler step.  `submit p g` models backlog-mode
`submit_task`: append `(priority, generation_id)` to the queue, re-sort
it (stable, priority descending), and create one `_process_queue`
coroutine.  `drain` runs one pending `_process_queue` coroutine.
`complete g` models the `add_done_callback` body: it only pops the
task from the in-flight map — the executor never drains the backlog on
completion. -/
def step (s : ExecState) : ExecEv → ExecState
  | .submit p gid =>
      { s with
        queue := sortDesc (s.queue ++ [(p, gid)])
        pendingDrains := s.pendingDrains + 1 }
  | .drain =>
      if s.pendingDrains = 0 then s
      else drainLoop s.queue.length { s with pendingDrains := s.pendingDrains - 1 }
  | .complete gid =>
      if s.active.contains gid then { s with active := s.active.erase gid } else s

/-- A run of the executor over an event sequence. -/
def runExec (s : ExecState) (evs : List ExecEv) : ExecState :=
  evs.foldl step s

/-- Claim C4 is violated by the code: completion of an in-flight task
does not drain the backlog (the done callback only removes the task
from `active_tasks`; nothing re-invokes `_process_queue`).  With
`max_concurrent = 1`, submitting LOW (priority 1, id 100), CRITICAL
(priority 4, id 101) and MEDIUM (priority 2, id 102), letting the three
scheduled `_process_queue` coroutines run, and then completing the one
launched task: only CRITICAL was ever launched, and after it completes
MEDIUM and LOW remain queued forever with no pending drains — they are
never executed, let alone in the claimed order CRITICAL, MEDIUM, LOW.
The second conjunct shows generally that a `complete` event never
launches anything and never shrinks the queue. -/
theorem C4_no_drain_on_completion :
    runExec ⟨[], [], 0, [], 1⟩
      [.submit 1 100, .submit 4 101, .submit 2 102, .drain, .drain, .drain,
       .complete 101] =
      ⟨[(2, 102), (1, 100)], [], 0, [101], 1⟩ ∧
    (∀ (s : ExecState) (g : Nat), (step s (.complete g)).launched = s.launched ∧
      (step s (.complete g)).queue = s.queue ∧
      (step s (.complete g)).pendingDrains = s.pendingDrains) := by
  refine ⟨by decide, ?_⟩
  intro s g
  simp only [step]
  split <;> simp

/-! ## Agent manager draft review
(`app/services/agent_manager.py`, `AgentManager.update_draft` and
`AgentManager._regenerate_characters`)

Draft documents here carry the fields the call sites use: `type`,
`content`, `metadata` and `status` (their Pydantic schema,
`DraftContentSchema`, is imported in `app/schemas/__init__.py` and
`app/models/models.py` but is absent from the source tree; the field
set follows the constructor calls and attribute accesses in
`agent_manager.py`).  Timestamps are abstracted into an explicit `now`
string; the regeneration agent's output is a parameter. -/

/-- A draft document as the agent manager reads and writes it. -/
structure MDraft where
  id : Nat
  dtype : String
  content : Json
  metadata : PyDict
  status : DraftStatus

/-- Outcome persisted and returned by `update_draft`. -/
structure UpdateOutcome where
  store : List MDraft
  nextId : Nat
  message : String
  newDraftId : Option Nat := none

/-- A feedback entry as built by `update_draft` under `regenerate`:
`{"timestamp": ..., "message": feedback}`. -/
def mkFeedbackEntry (now feedback : String) : Json :=
  .obj [("timestamp", .str now), ("message", .str feedback)]

/-- Model of `AgentManager.update_draft(draft_id, feedback, regenerate)`.

With `regenerate` set: the feedback entry is appended to
`draft.metadata["feedback"]` (creating the list if absent) and the
metadata update is persisted; for a `character_list` draft the agent is
re-run (its output is the `agentOutput` parameter, with the feedback
folded into its context) and a new PENDING draft is created carrying
the updated metadata, leaving the original draft's status and content
unchanged; for a `chapter_list` draft the code calls the non-existent
method `_regenerate_chapters`, raising `AttributeError`; for any other
type it reports that regeneration is not implemented.

Without `regenerate`: the code appends the feedback only to the
in-memory `draft.feedback` attribute and then persists
`{"status": "selected"}` — the stored draft's status flips to SELECTED
and the feedback never reaches the database. -/
def update_draft (store : List MDraft) (nextId : Nat) (draftId : Nat)
    (feedback : String) (regenerate : Bool) (now : String) (agentOutput : Json) :
    Except String UpdateOutcome :=
  match store.find? (fun d => d.id = draftId) with
  | none => .error ("Draft " ++ toString draftId ++ " not found")
  | some draft =>
      if regenerate then
        let md1 := if draft.metadata.hasKey "feedback" then draft.metadata
                   else draft.metadata.set "feedback" (.arr [])
        let md2 := match md1.get "feedback" with
          | some (.arr xs) =>
              md1.set "feedback" (.arr (xs ++ [mkFeedbackEntry now feedback]))
          | _ => md1
        let store1 := store.map (fun d =>
          if d.id = draftId then { d with metadata := md2 } else d)
        if draft.dtype = "character_list" then
          let newDraft : MDraft :=
            { id := nextId, dtype := "character_list", content := agentOutput,
              metadata := md2, status := .pending }
          .ok { store := store1 ++ [newDraft]
                nextId := nextId + 1
                message := "Characters regenerated based on feedback."
                newDraftId := some nextId }
        else if draft.dtype = "chapter_list" then
          .error "AttributeError: _regenerate_chapters"
        else
          .ok { store := store1
                nextId := nextId
                message := "Regeneration not implemented for this type" }
      else
        let store1 := store.map (fun d =>
          if d.id = draftId then { d with status := .selected } else d)
        .ok { store := store1
              nextId := nextId
              message := "Draft updated with feedback" }

/-- Claim C9 is violated by the code on the `regenerate = False` path:
`update_draft(draft_id, feedback, False)` does NOT append the feedback
to the draft's stored metadata — it persists only
`{"status": "selected"}` (despite the adjacent comment "Just update the
draft with feedback"), losing the feedback and flipping the draft to
SELECTED.  Evaluated at a PENDING `character_list` draft: the stored
metadata is unchanged (no feedback entry anywhere) and the status
becomes SELECTED. -/
theorem C9_update_draft_feedback_lost :
    update_draft
        [⟨1, "character_list", .obj [], [("num_characters", .int 5)], .pending⟩]
        2 1 "make them older" false "2026-10-12T00:00:00Z" (.obj []) =
      .ok { store := [⟨1, "character_list", .obj [],
              [("num_characters", .int 5)], .selected⟩]
            nextId := 2
            message := "Draft updated with feedback" } :=
  rfl

/-! ## Output parsing pipeline
(`BaseTask.extract_json` in `app/services/llm_tasks/base.py`, followed
by `json.loads` as called in `BaseTask.parse_output`)

`extract_json` is modelled after its three regex stages: the lazy
```` ```json …``` ```` fenced-block pattern, the greedy
bracket-delimited pattern, and the bare `text.strip()` fallback.
`json.loads` is modelled as a recursive-descent parser over the
modelled JSON fragment (floats return `none`). -/

/-- Whitespace of Python's regex class `\s`. -/
def isWsChar (c : Char) : Bool :=
  c = ' ' || c = '\t' || c = '\n' || c = '\x0d' || c = '\x0c' || c = '\x0b'

/-- Leading-whitespace removal under the regex class `\s`. -/
def dropWs : List Char → List Char
  | [] => []
  | c :: rest => if isWsChar c then dropWs rest else c :: rest

/-- Whitespace skippable by `json.loads` between tokens. -/
def isJsonWs (c : Char) : Bool :=
  c = ' ' || c = '\t' || c = '\n' || c = '\x0d'

/-- Leading JSON-whitespace removal. -/
def dropJsonWs : List Char → List Char
  | [] => []
  | c :: rest => if isJsonWs c then dropJsonWs rest else c :: rest

/-- Decimal digit test. -/
def isDigitCh (c : Char) : Bool := 48 ≤ c.toNat && c.toNat ≤ 57

/-- Value of one hexadecimal digit. -/
def hexDigitVal (c : Char) : Option Nat :=
  if 48 ≤ c.toNat ∧ c.toNat ≤ 57 then some (c.toNat - 48)
  else if 97 ≤ c.toNat ∧ c.toNat ≤ 102 then some (c.toNat - 87)
  else if 65 ≤ c.toNat ∧ c.toNat ≤ 70 then some (c.toNat - 55)
  else none

/-- JSON string-body parser, fuel-indexed for structural recursion:
consumes up to the closing quote, resolving the escapes `json.loads`
accepts (`\" \\ \/ \b \f \n \r \t` and `\uXXXX`, pairing surrogates);
unescaped control characters are rejected as in strict-mode
`json.loads`.  Lone surrogates, which Python would keep, fall outside
`Char` and outside the modelled fragment.  Every step consumes at
least one character, so fuel equal to the input length never runs
out. -/
def parseStrGo : Nat → List Char → Option (List Char × List Char)
  | 0, _ => none
  | fuel + 1, cs =>
      match cs with
      | [] => none
      | c :: rest =>
          if c = '"' then some ([], rest)
          else if c = '\\' then
            match rest with
            | [] => none
            | e :: rest2 =>
                if e = 'u' then
                  match rest2 with
                  | h1 :: h2 :: h3 :: h4 :: rest3 =>
                      match hexDigitVal h1, hexDigitVal h2, hexDigitVal h3,
                          hexDigitVal h4 with
                      | some a, some b, some c2, some d =>
                          let v := ((a * 16 + b) * 16 + c2) * 16 + d
                          if 55296 ≤ v ∧ v < 56320 then
                            match rest3 with
                            | b1 :: b2 :: g1 :: g2 :: g3 :: g4 :: rest4 =>
                                if b1 = '\\' ∧ b2 = 'u' then
                                  match hexDigitVal g1, hexDigitVal g2,
                                      hexDigitVal g3, hexDigitVal g4 with
                                  | some a2, some b2, some c3, some d2 =>
                                      let w := ((a2 * 16 + b2) * 16 + c3) * 16 + d2
                                      if 56320 ≤ w ∧ w < 57344 then
                                        match parseStrGo fuel rest4 with
                                        | some (s, r) =>
                                            some (Char.ofNat
                                              (65536 + (v - 55296) * 1024 +
                                                (w - 56320)) :: s, r)
                                        | none => none
                                      else none
                                  | _, _, _, _ => none
                                else none
                            | _ => none
                          else
                            match parseStrGo fuel rest3 with
                            | some (s, r) => some (Char.ofNat v :: s, r)
                            | none => none
                      | _, _, _, _ => none
                  | _ => none
                else
                  let esc : Option Char :=
                    if e = '"' then some '"'
                    else if e = '\\' then some '\\'
                    else if e = '/' then some '/'
                    else if e = 'b' then some '\x08'
                    else if e = 'f' then some '\x0c'
                    else if e = 'n' then some '\n'
                    else if e = 'r' then some '\x0d'
                    else if e = 't' then some '\t'
                    else none
                  match esc with
                  | some c2 =>
                      match parseStrGo fuel rest2 with
                      | some (s, r) => some (c2 :: s, r)
                      | none => none
                  | none => none
          else if c.toNat < 32 then none
          else
            match parseStrGo fuel rest with
            | some (s, r) => some (c :: s, r)
            | none => none

/-- JSON string-body parser entry point. -/
def parseStr (cs : List Char) : Option (List Char × List Char) :=
  parseStrGo cs.length cs

/-- Longest decimal-digit prefix and the remainder. -/
def takeDigits : List Char → List Char × List Char
  | [] => ([], [])
  | c :: rest =>
      if isDigitCh c then
        let p := takeDigits rest
        (c :: p.1, p.2)
      else ([], c :: rest)

/-- Value of a digit list, most significant first. -/
def digitsVal (ds : List Char) : Nat :=
  ds.foldl (fun a c => a * 10 + (c.toNat - 48)) 0

/-- True when a number cannot legally end here: the next character
continues the numeral (a digit after a leading zero) or starts a
fraction/exponent, which the modelled fragment excludes. -/
def numCont : List Char → Bool
  | [] => false
  | c :: _ => isDigitCh c || c = '.' || c = 'e' || c = 'E'

/-- JSON integer parser following the scanner's `-?(?:0|[1-9]\d*)`:
no leading zeros; a following fraction or exponent (a float) is
outside the modelled fragment and yields `none`. -/
def parseNum (cs : List Char) : Option (Json × List Char) :=
  let body : List Char → Option (Nat × List Char) := fun cs1 =>
    match cs1 with
    | [] => none
    | c :: rest =>
        if c = '0' then some (0, rest)
        else if isDigitCh c then
          let p := takeDigits (c :: rest)
          some (digitsVal p.1, p.2)
        else none
  let finish : Bool → Option (Nat × List Char) → Option (Json × List Char) :=
    fun neg r =>
      match r with
      | some (n, rst) =>
          if numCont rst then none
          else some (.int (if neg then -(n : Int) else (n : Int)), rst)
      | none => none
  match cs with
  | [] => none
  | c :: rest =>
      if c = '-' then finish true (body rest) else finish false (body (c :: rest))


mutual

/-- JSON value parser (`json.loads` scanner), fuel-indexed for
structural recursion; callers skip leading whitespace. -/
def pVal : Nat → List Char → Option (Json × List Char)
  | 0, _ => none
  | fuel + 1, cs =>
      match cs with
      | [] => none
      | c :: rest =>
          if c = 'n' then
            match rest with
            | c1 :: c2 :: c3 :: r =>
                if c1 = 'u' ∧ c2 = 'l' ∧ c3 = 'l' then some (.null, r) else none
            | _ => none
          else if c = 't' then
            match rest with
            | c1 :: c2 :: c3 :: r =>
                if c1 = 'r' ∧ c2 = 'u' ∧ c3 = 'e' then some (.bool true, r) else none
            | _ => none
          else if c = 'f' then
            match rest with
            | c1 :: c2 :: c3 :: c4 :: r =>
                if c1 = 'a' ∧ c2 = 'l' ∧ c3 = 's' ∧ c4 = 'e' then
                  some (.bool false, r)
                else none
            | _ => none
          else if c = '"' then
            match parseStr rest with
            | some (s, r) => some (.str (String.mk s), r)
            | none => none
          else if c = '[' then
            match dropJsonWs rest with
            | d :: r2 =>
                if d = ']' then some (.arr [], r2)
                else
                  match pItems fuel (d :: r2) with
                  | some (xs, r3) => some (.arr xs, r3)
                  | none => none
            | [] => none
          else if c = lcurl then
            match dropJsonWs rest with
            | d :: r2 =>
                if d = rcurl then some (.obj [], r2)
                else
                  match pFields fuel (d :: r2) with
                  | some (fs, r3) => some (.obj fs, r3)
                  | none => none
            | [] => none
          else parseNum cs

/-- Non-empty array item list parser: value, then `,` and further
items or the closing `]`. -/
def pItems : Nat → List Char → Option (List Json × List Char)
  | 0, _ => none
  | fuel + 1, cs =>
      match pVal fuel cs with
      | some (v, r) =>
          match dropJsonWs r with
          | d :: r2 =>
              if d = ',' then
                match pItems fuel (dropJsonWs r2) with
                | some (vs, r3) => some (v :: vs, r3)
                | none => none
              else if d = ']' then some ([v], r2)
              else none
          | [] => none
      | none => none

/-- Non-empty object member list parser: `"key": value`, then `,` and
further members or the closing brace. -/
def pFields : Nat → List Char → Option (List (String × Json) × List Char)
  | 0, _ => none
  | fuel + 1, cs =>
      match cs with
      | c :: rest =>
          if c = '"' then
            match parseStr rest with
            | some (k, r) =>
                match dropJsonWs r with
                | d2 :: r2 =>
                    if d2 = ':' then
                      match pVal fuel (dropJsonWs r2) with
                      | some (v, r3) =>
                          match dropJsonWs r3 with
                          | d :: r5 =>
                              if d = ',' then
                                match pFields fuel (dropJsonWs r5) with
                                | some (fs, r6) => some ((String.mk k, v) :: fs, r6)
                                | none => none
                              else if d = rcurl then some ([(String.mk k, v)], r5)
                              else none
                          | [] => none
                      | none => none
                    else none
                | [] => none
            | none => none
          else none
      | [] => none

end

/-- Model of `json.loads`: parse one value surrounded by optional
whitespace; anything else trailing is an error. -/
def loads (s : String) : Option Json :=
  let cs := dropJsonWs s.data
  match pVal (cs.length + 1) cs with
  | some (v, rest) => if dropJsonWs rest = [] then some v else none
  | none => none

/-- Boolean prefix test on character lists. -/
def startsWithL : List Char → List Char → Bool
  | [], _ => true
  | _ :: _, [] => false
  | p :: ps, c :: cs => p = c && startsWithL ps cs

/-- Test for a leading ```` ``` ```` fence. -/
def startsWithTicks : List Char → Bool
  | c1 :: c2 :: c3 :: _ => c1 = '`' && c2 = '`' && c3 = '`'
  | _ => false

/-- Whether `\s*```` ``` ```` matches at this position (some prefix of
the leading whitespace run, then three backticks). -/
def wsThenTicks (cs : List Char) : Bool := startsWithTicks (dropWs cs)

/-- Lazy capture of the fenced-block regex
`` ```json\s*([\s\S]*?)\s*``` ``: the shortest prefix whose remainder
matches `\s*```` ``` ````. -/
def captureTo (cs : List Char) : Option (List Char) :=
  if wsThenTicks cs then some []
  else
    match cs with
    | [] => none
    | c :: rest =>
        match captureTo rest with
        | some cap => some (c :: cap)
        | none => none

/-- The literal `` ```json `` opening of the fenced-block pattern. -/
def ticksJson : List Char := ['`', '`', '`', 'j', 's', 'o', 'n']

/-- Completion of a fenced-block match after `` ```json ``: the first
`\s*` greedily takes the maximal whitespace run (backtracking cannot
find a fence inside it), then the lazy capture runs to the first
position where `\s*```` ``` ```` matches. -/
def completeFence (cs : List Char) : Option (List Char) :=
  captureTo (dropWs cs)

/-- Scan for the first completable `` ```json …``` `` match, as
`re.findall` restarts at the next position when a match attempt cannot
complete. -/
def findFence : List Char → Option (List Char)
  | [] => none
  | c :: rest =>
      if startsWithL ticksJson (c :: rest) then
        match completeFence (List.drop 7 (c :: rest)) with
        | some cap => some cap
        | none => findFence rest
      else findFence rest

/-- Split a list at the last occurrence of a closing character:
returns the part up to and including it, and the remainder. -/
def cutAtLast (close : Char) : List Char → Option (List Char × List Char)
  | [] => none
  | c :: rest =>
      match cutAtLast close rest with
      | some (a, b) => some (c :: a, b)
      | none => if c = close then some ([c], rest) else none

theorem cutAtLast_length (close : Char) :
    ∀ cs a b, cutAtLast close cs = some (a, b) →
      cs.length = a.length + b.length ∧ 0 < a.length := by
  intro cs
  induction cs with
  | nil => intro a b h; simp [cutAtLast] at h
  | cons c rest ih =>
      intro a b h
      simp only [cutAtLast] at h
      cases hr : cutAtLast close rest with
      | some p =>
          rw [hr] at h
          cases p with
          | mk a' b' =>
              have := ih a' b' hr
              cases h
              simp only [List.length_cons]
              omega
      | none =>
          rw [hr] at h
          by_cases hc : c = close
          · rw [if_pos hc] at h
            cases h
            constructor
            · simp
              omega
            · simp
          · rw [if_neg hc] at h
            exact absurd h (by simp)

/-- Matches of the greedy bracket-delimited pattern
`(\{[\s\S]*\}|\[[\s\S]*\])` as `re.findall` collects them: from an
opening bracket, the greedy `[\s\S]*` reaches to the last matching
closer; scanning resumes after each match. -/
def bracketAltGo : Nat → List Char → List (List Char)
  | 0, _ => []
  | fuel + 1, cs =>
      match cs with
      | [] => []
      | c :: rest =>
          if c = lcurl then
            match cutAtLast rcurl rest with
            | some (a, b) => (c :: a) :: bracketAltGo fuel b
            | none => bracketAltGo fuel rest
          else if c = '[' then
            match cutAtLast ']' rest with
            | some (a, b) => (c :: a) :: bracketAltGo fuel b
            | none => bracketAltGo fuel rest
          else bracketAltGo fuel rest

/-- Entry point for the bracket pattern scan; the fuel equals the text
length, which `cutAtLast_length` shows is never exhausted. -/
def bracketAlt (cs : List Char) : List (List Char) :=
  bracketAltGo cs.length cs

/-- First longest element, as Python's `max(matches, key=len)`. -/
def longestFirst (m : List Char) (ms : List (List Char)) : List Char :=
  ms.foldl (fun best x => if x.length > best.length then x else best) m

/-- Python's `str.strip()`: leading and trailing whitespace removed. -/
def stripWs (cs : List Char) : List Char :=
  (dropWs (dropWs cs).reverse).reverse

/-- Model of `BaseTask.extract_json` on character lists: first the
lazy fenced ```` ```json ```` block (first match), else the longest
greedy bracket-delimited match, else the stripped raw text. -/
def extract_json_chars (text : List Char) : List Char :=
  match findFence text with
  | some cap => cap
  | none =>
      match bracketAlt text with
      | [] => stripWs text
      | m :: ms => longestFirst m ms

/-- Model of `BaseTask.extract_json`. -/
def extract_json (text : String) : String :=
  String.mk (extract_json_chars text.data)

/-! ### Well-formed payloads and parser fuel -/

/-- Characters that serialize as themselves or as a simple backslash
escape and parse back unchanged: printable ASCII. -/
def plainChar (c : Char) : Bool := 32 ≤ c.toNat && c.toNat < 128

mutual

/-- Schema-conformant payloads of the modelled fragment: every string
(keys included) is printable ASCII. -/
def wfJson : Json → Bool
  | .null => true
  | .bool _ => true
  | .int _ => true
  | .str s => s.data.all plainChar
  | .arr xs => wfItems xs
  | .obj fs => wfFields fs

/-- Well-formedness of array elements. -/
def wfItems : List Json → Bool
  | [] => true
  | x :: rest => wfJson x && wfItems rest

/-- Well-formedness of object members. -/
def wfFields : List (String × Json) → Bool
  | [] => true
  | (k, v) :: rest => k.data.all plainChar && wfJson v && wfFields rest

end

mutual

/-- Parser fuel sufficient for a value. -/
def jfuel : Json → Nat
  | .arr xs => jfuelItems xs + 1
  | .obj fs => jfuelFields fs + 1
  | _ => 1

/-- Parser fuel sufficient for an item list. -/
def jfuelItems : List Json → Nat
  | [] => 0
  | x :: rest => max (jfuel x) (jfuelItems rest) + 1

/-- Parser fuel sufficient for a member list. -/
def jfuelFields : List (String × Json) → Nat
  | [] => 0
  | f :: rest => max (jfuel f.2) (jfuelFields rest) + 1

end

/-- Whether a text contains three consecutive backticks. -/
def hasTicks : List Char → Bool
  | [] => false
  | c :: rest => startsWithTicks (c :: rest) || hasTicks rest

/-! ### Decimal digit lemmas -/

theorem digitChar_spec : ∀ m, m < 10 → isDigitCh (digitChar m) = true ∧
    (digitChar m).toNat = 48 + m ∧ digitChar m ≠ '-' ∧
    isWsChar (digitChar m) = false ∧ isJsonWs (digitChar m) = false := by
  decide

theorem digitChar_ne_zero : ∀ m, m < 10 → 1 ≤ m → digitChar m ≠ '0' := by
  decide

theorem natDigitsAux_all_digits :
    ∀ fuel n, n ≤ fuel → (natDigitsAux fuel n).all isDigitCh = true := by
  intro fuel
  induction fuel with
  | zero =>
      intro n hn
      have : n = 0 := Nat.le_zero.mp hn
      subst this
      decide
  | succ f ih =>
      intro n hn
      simp only [natDigitsAux]
      by_cases h10 : n < 10
      · rw [if_pos h10]
        simp [(digitChar_spec n h10).1]
      · rw [if_neg h10]
        rw [List.all_append]
        have hdiv : n / 10 ≤ f := by
          have : n / 10 < n := Nat.div_lt_self (by omega) (by omega)
          omega
        rw [ih (n / 10) hdiv]
        simp [(digitChar_spec (n % 10) (Nat.mod_lt n (by omega))).1]

theorem digitsVal_append_one (l : List Char) (d : Char) :
    digitsVal (l ++ [d]) = digitsVal l * 10 + (d.toNat - 48) := by
  simp [digitsVal, List.foldl_append]

theorem natDigitsAux_val : ∀ fuel n, n ≤ fuel →
    digitsVal (natDigitsAux fuel n) = n := by
  intro fuel
  induction fuel with
  | zero =>
      intro n hn
      have : n = 0 := Nat.le_zero.mp hn
      subst this
      decide
  | succ f ih =>
      intro n hn
      simp only [natDigitsAux]
      by_cases h10 : n < 10
      · rw [if_pos h10]
        simp [digitsVal, (digitChar_spec n h10).2.1]
      · rw [if_neg h10]
        rw [digitsVal_append_one]
        have hdiv : n / 10 ≤ f := by
          have : n / 10 < n := Nat.div_lt_self (by omega) (by omega)
          omega
        rw [ih (n / 10) hdiv, (digitChar_spec (n % 10) (Nat.mod_lt n (by omega))).2.1]
        omega

theorem natDigitsAux_head : ∀ fuel n, n ≤ fuel →
    ∃ m t, m < 10 ∧ natDigitsAux fuel n = digitChar m :: t := by
  intro fuel
  induction fuel with
  | zero =>
      intro n hn
      have : n = 0 := Nat.le_zero.mp hn
      subst this
      exact ⟨0, [], by decide, rfl⟩
  | succ f ih =>
      intro n hn
      simp only [natDigitsAux]
      by_cases h10 : n < 10
      · rw [if_pos h10]
        exact ⟨n, [], h10, rfl⟩
      · rw [if_neg h10]
        have hdiv : n / 10 ≤ f := by
          have : n / 10 < n := Nat.div_lt_self (by omega) (by omega)
          omega
        obtain ⟨m, t, hm, ht⟩ := ih (n / 10) hdiv
        exact ⟨m, t ++ [digitChar (n % 10)], hm, by rw [ht]; rfl⟩

theorem natDigitsAux_head_pos : ∀ fuel n, n ≤ fuel → 0 < n →
    ∃ m t, 1 ≤ m ∧ m < 10 ∧ natDigitsAux fuel n = digitChar m :: t := by
  intro fuel
  induction fuel with
  | zero =>
      intro n hn hpos
      omega
  | succ f ih =>
      intro n hn hpos
      simp only [natDigitsAux]
      by_cases h10 : n < 10
      · rw [if_pos h10]
        exact ⟨n, [], hpos, h10, rfl⟩
      · rw [if_neg h10]
        have hdiv : n / 10 ≤ f := by
          have : n / 10 < n := Nat.div_lt_self (by omega) (by omega)
          omega
        have hdivpos : 0 < n / 10 := Nat.div_pos (by omega) (by omega)
        obtain ⟨m, t, hm1, hm, ht⟩ := ih (n / 10) hdiv hdivpos
        exact ⟨m, t ++ [digitChar (n % 10)], hm1, hm, by rw [ht]; rfl⟩

theorem takeDigits_exact : ∀ ds rest, ds.all isDigitCh = true →
    numCont rest = false → takeDigits (ds ++ rest) = (ds, rest) := by
  intro ds
  induction ds with
  | nil =>
      intro rest _ hr
      cases rest with
      | nil => rfl
      | cons c r =>
          simp only [numCont, Bool.or_eq_false_iff] at hr
          simp [takeDigits, hr.1.1.1]
  | cons c ds' ih =>
      intro rest hall hr
      simp only [List.all_cons, Bool.and_eq_true] at hall
      simp [takeDigits, hall.1, ih rest hall.2 hr]

/-! ### Integer and string round-trip lemmas -/

theorem parseNum_intChars (i : Int) (rest : List Char)
    (hrest : numCont rest = false) :
    parseNum (intChars i ++ rest) = some (.int i, rest) := by
  by_cases hneg : i < 0
  · have habs : 0 < i.natAbs := by omega
    obtain ⟨m, t, hm1, hm, ht⟩ :=
      natDigitsAux_head_pos i.natAbs i.natAbs (Nat.le_refl _) habs
    have hall := natDigitsAux_all_digits i.natAbs i.natAbs (Nat.le_refl _)
    have hval : digitsVal (natDigits i.natAbs) = i.natAbs :=
      natDigitsAux_val i.natAbs i.natAbs (Nat.le_refl _)
    have hic : intChars i = '-' :: natDigits i.natAbs := by
      simp [intChars, hneg]
    have ht' : natDigits i.natAbs = digitChar m :: t := ht
    have hne0 := digitChar_ne_zero m hm hm1
    have hdig := (digitChar_spec m hm).1
    have hta : takeDigits (digitChar m :: (t ++ rest)) = (natDigits i.natAbs, rest) := by
      rw [← List.cons_append, ← ht']
      exact takeDigits_exact (natDigits i.natAbs) rest hall hrest
    rw [hic, List.cons_append, ht', List.cons_append]
    simp [parseNum, hne0, hdig, hta, hval, hrest]
    rw [abs_of_neg hneg, neg_neg]
  · by_cases hz : i.toNat = 0
    · have hi0 : i = 0 := by omega
      have hic : intChars i = ['0'] := by
        rw [show intChars i = natDigits i.toNat by simp [intChars, hneg], hz]
        rfl
      rw [hic, hi0]
      simp [parseNum, hrest]
    · have hpos : 0 < i.toNat := by omega
      obtain ⟨m, t, hm1, hm, ht⟩ :=
        natDigitsAux_head_pos i.toNat i.toNat (Nat.le_refl _) hpos
      have hall := natDigitsAux_all_digits i.toNat i.toNat (Nat.le_refl _)
      have hval : digitsVal (natDigits i.toNat) = i.toNat :=
        natDigitsAux_val i.toNat i.toNat (Nat.le_refl _)
      have hic : intChars i = natDigits i.toNat := by
        simp [intChars, hneg]
      have ht' : natDigits i.toNat = digitChar m :: t := ht
      have hne0 := digitChar_ne_zero m hm hm1
      have hnem := (digitChar_spec m hm).2.2.1
      have hdig := (digitChar_spec m hm).1
      have hta : takeDigits (digitChar m :: (t ++ rest)) = (natDigits i.toNat, rest) := by
        rw [← List.cons_append, ← ht']
        exact takeDigits_exact (natDigits i.toNat) rest hall hrest
      have hii : ((i.toNat : Nat) : Int) = i := by omega
      rw [hic, ht', List.cons_append]
      simp [parseNum, hne0, hnem, hdig, hta, hval, hrest, hii]

theorem escChar_of_plain (c : Char) (h : plainChar c = true) (h1 : c ≠ '"')
    (h2 : c ≠ '\\') : escChar c = [c] := by
  simp only [plainChar, Bool.and_eq_true, decide_eq_true_eq] at h
  have hc8 : c ≠ '\x08' := by intro hc; rw [hc] at h; exact absurd h (by decide)
  have hcc : c ≠ '\x0c' := by intro hc; rw [hc] at h; exact absurd h (by decide)
  have hcn : c ≠ '\n' := by intro hc; rw [hc] at h; exact absurd h (by decide)
  have hcr : c ≠ '\x0d' := by intro hc; rw [hc] at h; exact absurd h (by decide)
  have hct : c ≠ '\t' := by intro hc; rw [hc] at h; exact absurd h (by decide)
  simp only [escChar, if_neg h1, if_neg h2, if_neg hc8, if_neg hcc, if_neg hcn,
    if_neg hcr, if_neg hct, if_neg (by omega : ¬ c.toNat < 32),
    if_pos (by omega : c.toNat < 128)]

theorem parseStrGo_quote (fuel : Nat) (rest : List Char) :
    parseStrGo (fuel + 1) ('"' :: rest) = some ([], rest) := by
  simp [parseStrGo]

theorem parseStrGo_esc_quote (fuel : Nat) (tail : List Char) :
    parseStrGo (fuel + 1) ('\\' :: '"' :: tail) =
      (match parseStrGo fuel tail with
       | some (s, r) => some ('"' :: s, r)
       | none => none) := by
  simp [parseStrGo]

theorem parseStrGo_esc_back (fuel : Nat) (tail : List Char) :
    parseStrGo (fuel + 1) ('\\' :: '\\' :: tail) =
      (match parseStrGo fuel tail with
       | some (s, r) => some ('\\' :: s, r)
       | none => none) := by
  simp [parseStrGo]

theorem parseStrGo_plain (fuel : Nat) (c : Char) (tail : List Char)
    (h1 : c ≠ '"') (h2 : c ≠ '\\') (h3 : ¬ c.toNat < 32) :
    parseStrGo (fuel + 1) (c :: tail) =
      (match parseStrGo fuel tail with
       | some (s, r) => some (c :: s, r)
       | none => none) := by
  simp only [parseStrGo]
  rw [if_neg h1, if_neg h2, if_neg h3]

theorem parseStrGo_escList : ∀ s : List Char, s.all plainChar = true →
    ∀ fuel, s.length ≤ fuel → ∀ rest,
    parseStrGo (fuel + 1) (escList s ++ '"' :: rest) = some (s, rest) := by
  intro s
  induction s with
  | nil =>
      intro _ fuel _ rest
      exact parseStrGo_quote fuel rest
  | cons c s' ih =>
      intro hall fuel hfuel rest
      simp only [List.all_cons, Bool.and_eq_true] at hall
      simp only [List.length_cons] at hfuel
      obtain ⟨f, hf⟩ : ∃ f, fuel = f + 1 := ⟨fuel - 1, by omega⟩
      subst hf
      have hlen : s'.length ≤ f := by omega
      have ih' := ih hall.2 f hlen rest
      by_cases hq : c = '"'
      · subst hq
        show parseStrGo _ ((escChar '"' ++ escList s') ++ '"' :: rest) = _
        rw [show escChar '"' = ['\\', '"'] from rfl]
        simp only [List.cons_append, List.nil_append]
        rw [parseStrGo_esc_quote, ih']
      · by_cases hb : c = '\\'
        · subst hb
          show parseStrGo _ ((escChar '\\' ++ escList s') ++ '"' :: rest) = _
          rw [show escChar '\\' = ['\\', '\\'] from rfl]
          simp only [List.cons_append, List.nil_append]
          rw [parseStrGo_esc_back, ih']
        · show parseStrGo _ ((escChar c ++ escList s') ++ '"' :: rest) = _
          rw [escChar_of_plain c hall.1 hq hb]
          simp only [List.cons_append, List.nil_append]
          have h32 : ¬ c.toNat < 32 := by
            simp only [plainChar, Bool.and_eq_true, decide_eq_true_eq] at hall
            omega
          rw [parseStrGo_plain (f + 1) c _ hq hb h32, ih']

theorem escList_length_ge : ∀ s : List Char, s.length ≤ (escList s).length := by
  intro s
  induction s with
  | nil => simp [escList]
  | cons c s' ih =>
      have hc : 1 ≤ (escChar c).length := by
        simp only [escChar]
        repeat' split
        all_goals simp
      simp only [escList, List.length_append, List.length_cons]
      omega

theorem parseStr_escList (s : List Char) (h : s.all plainChar = true)
    (rest : List Char) :
    parseStr (escList s ++ '"' :: rest) = some (s, rest) := by
  unfold parseStr
  have hlen : (escList s ++ '"' :: rest).length =
      ((escList s).length + rest.length) + 1 := by
    simp
    omega
  rw [hlen]
  exact parseStrGo_escList s h ((escList s).length + rest.length)
    (by have := escList_length_ge s; omega) rest

/-! ### Serialization head and separator lemmas -/

theorem digitChar_head_facts : ∀ m, m < 10 →
    digitChar m ≠ 'n' ∧ digitChar m ≠ 't' ∧ digitChar m ≠ 'f' ∧
    digitChar m ≠ '"' ∧ digitChar m ≠ '[' ∧ digitChar m ≠ lcurl ∧
    digitChar m ≠ ']' ∧ digitChar m ≠ rcurl ∧ digitChar m ≠ '`' := by
  decide

theorem dropJsonWs_cons_of_not (c : Char) (t : List Char)
    (h : isJsonWs c = false) : dropJsonWs (c :: t) = c :: t := by
  simp [dropJsonWs, h]

theorem numCont_of_head (c : Char) (r : List Char) (h1 : isDigitCh c = false)
    (h2 : c ≠ '.') (h3 : c ≠ 'e') (h4 : c ≠ 'E') :
    numCont (c :: r) = false := by
  simp [numCont, h1, h2, h3, h4]

theorem dumpsL_head (v : Json) : ∃ c t, dumpsL v = c :: t ∧
    isJsonWs c = false ∧ isWsChar c = false ∧ c ≠ ']' ∧ c ≠ '`' := by
  cases v with
  | null => exact ⟨'n', _, rfl, by decide, by decide, by decide, by decide⟩
  | bool b =>
      cases b with
      | true => exact ⟨'t', _, rfl, by decide, by decide, by decide, by decide⟩
      | false => exact ⟨'f', _, rfl, by decide, by decide, by decide, by decide⟩
  | int i =>
      by_cases hneg : i < 0
      · refine ⟨'-', natDigits i.natAbs, ?_, by decide, by decide, by decide, by decide⟩
        simp only [dumpsL, intChars]
        rw [if_pos hneg]
      · obtain ⟨m, t, hm, ht⟩ :=
          natDigitsAux_head i.toNat i.toNat (Nat.le_refl _)
        have hs := digitChar_spec m hm
        have hh := digitChar_head_facts m hm
        refine ⟨digitChar m, t, ?_, hs.2.2.2.2, hs.2.2.2.1,
          hh.2.2.2.2.2.2.1, hh.2.2.2.2.2.2.2.2⟩
        simp only [dumpsL, intChars]
        rw [if_neg hneg]
        exact ht
  | str s => exact ⟨'"', _, rfl, by decide, by decide, by decide, by decide⟩
  | arr xs => exact ⟨'[', _, rfl, by decide, by decide, by decide, by decide⟩
  | obj fs => exact ⟨lcurl, _, rfl, by decide, by decide, by decide, by decide⟩

theorem dropJsonWs_dumpsL_append (v : Json) (u : List Char) :
    dropJsonWs (dumpsL v ++ u) = dumpsL v ++ u := by
  obtain ⟨c, t, hct, hjw, _, _, _⟩ := dumpsL_head v
  rw [hct, List.cons_append]
  exact dropJsonWs_cons_of_not c (t ++ u) hjw

/-! ### Parser fuel bounds -/

mutual

theorem jfuel_le : ∀ v : Json, jfuel v ≤ (dumpsL v).length + 1
  | .null => by simp [jfuel]
  | .bool b => by cases b <;> simp [jfuel]
  | .int i => by simp [jfuel]
  | .str s => by simp [jfuel]
  | .arr xs => by
      have h := jfuelItems_le xs
      simp only [jfuel, dumpsL, List.length_cons, List.length_append,
        List.length_nil]
      omega
  | .obj fs => by
      have h := jfuelFields_le fs
      simp only [jfuel, dumpsL, List.length_cons, List.length_append,
        List.length_nil]
      omega

theorem jfuelItems_le : ∀ xs : List Json, jfuelItems xs ≤ (dumpsArr xs).length + 2
  | [] => by
      have h0 : jfuelItems ([] : List Json) = 0 := rfl
      omega
  | [x] => by
      have h := jfuel_le x
      have h3 : jfuelItems [x] = max (jfuel x) (jfuelItems []) + 1 := rfl
      have h0 : jfuelItems ([] : List Json) = 0 := rfl
      have h4 : dumpsArr [x] = dumpsL x := rfl
      rw [h3, h0, h4]
      omega
  | x :: y :: r => by
      have h1 := jfuel_le x
      have h2 := jfuelItems_le (y :: r)
      have h3 : jfuelItems (x :: y :: r) = max (jfuel x) (jfuelItems (y :: r)) + 1 := rfl
      have h4 : (dumpsArr (x :: y :: r)).length =
          (dumpsL x).length + 2 + (dumpsArr (y :: r)).length := by
        simp only [dumpsArr, List.length_append, List.length_cons]
        omega
      rw [h3, h4]
      omega

theorem jfuelFields_le :
    ∀ fs : List (String × Json), jfuelFields fs ≤ (dumpsObj fs).length + 2
  | [] => by
      have h0 : jfuelFields ([] : List (String × Json)) = 0 := rfl
      omega
  | [(k, v)] => by
      have h := jfuel_le v
      have h3 : jfuelFields [(k, v)] = max (jfuel v) (jfuelFields []) + 1 := rfl
      have h0 : jfuelFields ([] : List (String × Json)) = 0 := rfl
      have h4 := dumpsObj_singleton_length (k, v)
      simp only [entryLen] at h4
      rw [h3, h0, h4]
      omega
  | (k, v) :: f :: r => by
      have h1 := jfuel_le v
      have h2 := jfuelFields_le (f :: r)
      have h3 : jfuelFields ((k, v) :: f :: r) =
          max (jfuel v) (jfuelFields (f :: r)) + 1 := rfl
      have h4 := dumpsObj_cons_cons_length (k, v) f r
      simp only [entryLen] at h4
      rw [h3, h4]
      omega

end

/-! ### Round-trip helper lemmas -/

theorem jfuel_pos (v : Json) : 1 ≤ jfuel v := by
  cases v with
  | arr xs =>
      have h : jfuel (.arr xs) = jfuelItems xs + 1 := rfl
      omega
  | obj fs =>
      have h : jfuel (.obj fs) = jfuelFields fs + 1 := rfl
      omega
  | null => exact Nat.le_refl 1
  | bool b => exact Nat.le_refl 1
  | int i => exact Nat.le_refl 1
  | str s => exact Nat.le_refl 1

theorem dumpsArr_cons_head (x : Json) (xs' : List Json) :
    ∃ c t, dumpsArr (x :: xs') = c :: t ∧ isJsonWs c = false ∧
      isWsChar c = false ∧ c ≠ ']' ∧ c ≠ '`' := by
  obtain ⟨c, t0, hct, h1, h2, h3, h4⟩ := dumpsL_head x
  cases xs' with
  | nil => exact ⟨c, t0, hct, h1, h2, h3, h4⟩
  | cons y r =>
      refine ⟨c, t0 ++ (',' :: ' ' :: dumpsArr (y :: r)), ?_, h1, h2, h3, h4⟩
      show dumpsL x ++ (',' :: ' ' :: dumpsArr (y :: r)) = _
      rw [hct, List.cons_append]

theorem dumpsObj_cons_head (e : String × Json) (r : List (String × Json)) :
    ∃ t, dumpsObj (e :: r) = '"' :: t := by
  obtain ⟨k, v⟩ := e
  cases r with
  | nil => exact ⟨_, rfl⟩
  | cons f r' => exact ⟨_, rfl⟩

theorem dropJsonWs_space (X : List Char) :
    dropJsonWs (' ' :: X) = dropJsonWs X := by
  simp only [dropJsonWs]
  rw [if_pos (by decide : isJsonWs ' ' = true)]

theorem dropWs_cons_of_not (c : Char) (t : List Char)
    (h : isWsChar c = false) : dropWs (c :: t) = c :: t := by
  simp [dropWs, h]

theorem dropWs_newline (X : List Char) : dropWs ('\n' :: X) = dropWs X := by
  simp only [dropWs]
  rw [if_pos (by decide : isWsChar '\n' = true)]

/-- The parser inverts the serializer: a bundle of the value, item-list
and member-list statements, proved by strong induction on the fuel
measure of the serialized value. -/
theorem roundtrip_bundle : ∀ n : Nat,
    (∀ v : Json, jfuel v ≤ n → wfJson v = true → ∀ fuel, jfuel v ≤ fuel →
      ∀ rest, numCont rest = false →
      pVal fuel (dumpsL v ++ rest) = some (v, rest)) ∧
    (∀ xs : List Json, jfuelItems xs ≤ n → wfItems xs = true → xs ≠ [] →
      ∀ fuel, jfuelItems xs ≤ fuel → ∀ rest,
      pItems fuel (dumpsArr xs ++ ']' :: rest) = some (xs, rest)) ∧
    (∀ fs : List (String × Json), jfuelFields fs ≤ n → wfFields fs = true →
      fs ≠ [] → ∀ fuel, jfuelFields fs ≤ fuel → ∀ rest,
      pFields fuel (dumpsObj fs ++ rcurl :: rest) = some (fs, rest)) := by
  intro n
  induction n using Nat.strong_induction_on with
  | _ n ih =>
    refine ⟨?_, ?_, ?_⟩
    · intro v hn hwf fuel hfuel rest hrest
      have hpos : 1 ≤ jfuel v := jfuel_pos v
      obtain ⟨f, rfl⟩ : ∃ f, fuel = f + 1 := ⟨fuel - 1, by omega⟩
      cases v with
      | null => simp [dumpsL, nullChars, pVal]
      | bool b => cases b <;> simp [dumpsL, trueChars, falseChars, pVal]
      | int i =>
          have hpn := parseNum_intChars i rest hrest
          by_cases hneg : i < 0
          · have hic : intChars i = '-' :: natDigits i.natAbs := by
              simp only [intChars]
              rw [if_pos hneg]
            have hd : dumpsL (.int i) = intChars i := rfl
            rw [hd, hic, List.cons_append]
            rw [hic, List.cons_append] at hpn
            simp only [pVal]
            rw [if_neg (by decide : ¬ ('-' : Char) = 'n'),
                if_neg (by decide : ¬ ('-' : Char) = 't'),
                if_neg (by decide : ¬ ('-' : Char) = 'f'),
                if_neg (by decide : ¬ ('-' : Char) = '"'),
                if_neg (by decide : ¬ ('-' : Char) = '['),
                if_neg (by decide : ¬ ('-' : Char) = lcurl)]
            exact hpn
          · obtain ⟨m, t, hm, ht⟩ :=
              natDigitsAux_head i.toNat i.toNat (Nat.le_refl _)
            have hh := digitChar_head_facts m hm
            have hic : intChars i = digitChar m :: t := by
              simp only [intChars]
              rw [if_neg hneg]
              exact ht
            have hd : dumpsL (.int i) = intChars i := rfl
            rw [hd, hic, List.cons_append]
            rw [hic, List.cons_append] at hpn
            simp only [pVal]
            rw [if_neg hh.1, if_neg hh.2.1, if_neg hh.2.2.1, if_neg hh.2.2.2.1,
                if_neg hh.2.2.2.2.1, if_neg hh.2.2.2.2.2.1]
            exact hpn
      | str s =>
          have hwf' : s.data.all plainChar = true := by
            simpa [wfJson] using hwf
          have hmk : String.mk s.data = s := rfl
          have hps := parseStr_escList s.data hwf' rest
          simp only [dumpsL, List.cons_append, List.append_assoc,
            List.singleton_append, List.nil_append]
          simp only [pVal]
          rw [if_neg (by decide : ¬ ('"' : Char) = 'n'),
              if_neg (by decide : ¬ ('"' : Char) = 't'),
              if_neg (by decide : ¬ ('"' : Char) = 'f'),
              if_pos trivial]
          rw [hps]
      | arr xs =>
          have hwf' : wfItems xs = true := by simpa [wfJson] using hwf
          cases xs with
          | nil =>
              have hd : dumpsL (.arr []) = ['[', ']'] := rfl
              rw [hd]
              simp [pVal, dropJsonWs, isJsonWs]
          | cons x xs' =>
              have e1 : jfuel (.arr (x :: xs')) = jfuelItems (x :: xs') + 1 := rfl
              have hlt : jfuelItems (x :: xs') < n := by omega
              have hp := (ih _ hlt).2.1 (x :: xs') (Nat.le_refl _) hwf'
                (by simp) f (by omega) rest
              obtain ⟨c, t, hct, hjw, _, hne, _⟩ := dumpsArr_cons_head x xs'
              have hkey : dropJsonWs (dumpsArr (x :: xs') ++ ']' :: rest) =
                  c :: (t ++ ']' :: rest) := by
                rw [hct, List.cons_append]
                exact dropJsonWs_cons_of_not c _ hjw
              rw [hct, List.cons_append] at hp
              have hd : dumpsL (.arr (x :: xs')) =
                  '[' :: (dumpsArr (x :: xs') ++ [']']) := rfl
              rw [hd, List.cons_append, List.append_assoc,
                List.singleton_append]
              simp only [pVal]
              rw [if_neg (by decide : ¬ ('[' : Char) = 'n'),
                  if_neg (by decide : ¬ ('[' : Char) = 't'),
                  if_neg (by decide : ¬ ('[' : Char) = 'f'),
                  if_neg (by decide : ¬ ('[' : Char) = '"'),
                  if_pos trivial]
              rw [hkey]
              simp [hne, hp]
      | obj fs =>
          have hwf' : wfFields fs = true := by simpa [wfJson] using hwf
          cases fs with
          | nil =>
              have hd : dumpsL (.obj []) = [lcurl, rcurl] := rfl
              rw [hd]
              simp only [List.cons_append, List.nil_append]
              simp only [pVal]
              rw [if_neg (by decide : ¬ lcurl = 'n'),
                  if_neg (by decide : ¬ lcurl = 't'),
                  if_neg (by decide : ¬ lcurl = 'f'),
                  if_neg (by decide : ¬ lcurl = '"'),
                  if_neg (by decide : ¬ lcurl = '['),
                  if_pos trivial]
              rw [dropJsonWs_cons_of_not rcurl rest (by decide)]
              simp
          | cons e fs' =>
              have e1 : jfuel (.obj (e :: fs')) = jfuelFields (e :: fs') + 1 := rfl
              have hlt : jfuelFields (e :: fs') < n := by omega
              have hp := (ih _ hlt).2.2 (e :: fs') (Nat.le_refl _) hwf'
                (by simp) f (by omega) rest
              obtain ⟨t, hct⟩ := dumpsObj_cons_head e fs'
              have hkey : dropJsonWs (dumpsObj (e :: fs') ++ rcurl :: rest) =
                  '"' :: (t ++ rcurl :: rest) := by
                rw [hct, List.cons_append]
                exact dropJsonWs_cons_of_not '"' _ (by decide)
              rw [hct, List.cons_append] at hp
              have hd : dumpsL (.obj (e :: fs')) =
                  lcurl :: (dumpsObj (e :: fs') ++ [rcurl]) := rfl
              rw [hd, List.cons_append, List.append_assoc,
                List.singleton_append]
              simp only [pVal]
              rw [if_neg (by decide : ¬ lcurl = 'n'),
                  if_neg (by decide : ¬ lcurl = 't'),
                  if_neg (by decide : ¬ lcurl = 'f'),
                  if_neg (by decide : ¬ lcurl = '"'),
                  if_neg (by decide : ¬ lcurl = '['),
                  if_pos trivial]
              rw [hkey]
              simp [hp, (show ('"' : Char) ≠ rcurl by decide)]
    · intro xs hn hwf hne fuel hfuel rest
      cases xs with
      | nil => exact absurd rfl hne
      | cons x xs' =>
          have e1 : jfuelItems (x :: xs') =
              max (jfuel x) (jfuelItems xs') + 1 := rfl
          obtain ⟨f, rfl⟩ : ∃ f, fuel = f + 1 := ⟨fuel - 1, by omega⟩
          have hwx : wfJson x = true ∧ wfItems xs' = true := by
            simpa [wfItems, Bool.and_eq_true] using hwf
          have hjx : jfuel x < n := by
            have := Nat.le_max_left (jfuel x) (jfuelItems xs')
            omega
          have hpvx := (ih _ hjx).1 x (Nat.le_refl _) hwx.1 f
            (by have := Nat.le_max_left (jfuel x) (jfuelItems xs'); omega)
          cases xs' with
          | nil =>
              have hda : dumpsArr [x] = dumpsL x := rfl
              rw [hda]
              simp only [pItems]
              rw [hpvx (']' :: rest)
                (numCont_of_head ']' rest (by decide) (by decide) (by decide)
                  (by decide))]
              simp [dropJsonWs_cons_of_not ']' rest (by decide)]
          | cons y r =>
              have e2 : jfuelItems (y :: r) =
                  max (jfuel y) (jfuelItems r) + 1 := rfl
              have hjyr : jfuelItems (y :: r) < n := by
                have := Nat.le_max_right (jfuel x) (jfuelItems (y :: r))
                omega
              have hrec := (ih _ hjyr).2.1 (y :: r) (Nat.le_refl _) hwx.2
                (by simp) f
                (by have := Nat.le_max_right (jfuel x) (jfuelItems (y :: r))
                    omega) rest
              obtain ⟨c, t, hct, hjw, _, _, _⟩ := dumpsArr_cons_head y r
              have hda : dumpsArr (x :: y :: r) =
                  dumpsL x ++ (',' :: ' ' :: dumpsArr (y :: r)) := rfl
              rw [hda, List.append_assoc]
              simp only [List.cons_append]
              simp only [pItems]
              rw [hpvx (',' :: ' ' :: (dumpsArr (y :: r) ++ ']' :: rest))
                (numCont_of_head ',' _ (by decide) (by decide) (by decide)
                  (by decide))]
              have hdw : dropJsonWs (' ' :: (dumpsArr (y :: r) ++ ']' :: rest)) =
                  dumpsArr (y :: r) ++ ']' :: rest := by
                rw [dropJsonWs_space, hct, List.cons_append]
                exact dropJsonWs_cons_of_not c _ hjw
              simp [dropJsonWs_cons_of_not ','
                  (' ' :: (dumpsArr (y :: r) ++ ']' :: rest)) (by decide),
                hdw, hrec]
    · intro fs hn hwf hne fuel hfuel rest
      cases fs with
      | nil => exact absurd rfl hne
      | cons e fs' =>
          obtain ⟨k, v⟩ := e
          have e1 : jfuelFields ((k, v) :: fs') =
              max (jfuel v) (jfuelFields fs') + 1 := rfl
          obtain ⟨f, rfl⟩ : ∃ f, fuel = f + 1 := ⟨fuel - 1, by omega⟩
          have hwx : (k.data.all plainChar = true ∧ wfJson v = true) ∧
              wfFields fs' = true := by
            simpa [wfFields, Bool.and_eq_true] using hwf
          have hjv : jfuel v < n := by
            have := Nat.le_max_left (jfuel v) (jfuelFields fs')
            omega
          have hpvv := (ih _ hjv).1 v (Nat.le_refl _) hwx.1.2 f
            (by have := Nat.le_max_left (jfuel v) (jfuelFields fs'); omega)
          have hmk : String.mk k.data = k := rfl
          cases fs' with
          | nil =>
              have hdo : dumpsObj [(k, v)] =
                  '"' :: (escList k.data ++ ('"' :: ':' :: ' ' :: dumpsL v)) := rfl
              rw [hdo]
              simp only [List.cons_append, List.append_assoc]
              simp only [pFields]
              rw [if_pos trivial]
              rw [parseStr_escList k.data hwx.1.1
                (':' :: ' ' :: (dumpsL v ++ rcurl :: rest))]
              have hdw : dropJsonWs (' ' :: (dumpsL v ++ rcurl :: rest)) =
                  dumpsL v ++ rcurl :: rest := by
                rw [dropJsonWs_space]
                exact dropJsonWs_dumpsL_append v _
              have hpv := hpvv (rcurl :: rest)
                (numCont_of_head rcurl rest (by decide) (by decide) (by decide)
                  (by decide))
              simp [dropJsonWs_cons_of_not ':'
                  (' ' :: (dumpsL v ++ rcurl :: rest)) (by decide),
                hdw, hpv,
                dropJsonWs_cons_of_not rcurl rest (by decide),
                (show (rcurl : Char) ≠ ',' by decide), hmk]
          | cons e2 r' =>
              have e3 : jfuelFields (e2 :: r') =
                  max (jfuel e2.2) (jfuelFields r') + 1 := rfl
              have hjr : jfuelFields (e2 :: r') < n := by
                have := Nat.le_max_right (jfuel v) (jfuelFields (e2 :: r'))
                omega
              have hrec := (ih _ hjr).2.2 (e2 :: r') (Nat.le_refl _) hwx.2
                (by simp) f
                (by have := Nat.le_max_right (jfuel v) (jfuelFields (e2 :: r'))
                    omega) rest
              obtain ⟨t, hct⟩ := dumpsObj_cons_head e2 r'
              have hdo : dumpsObj ((k, v) :: e2 :: r') =
                  ('"' :: (escList k.data ++ ('"' :: ':' :: ' ' :: dumpsL v)))
                    ++ (',' :: ' ' :: dumpsObj (e2 :: r')) := rfl
              rw [hdo]
              simp only [List.cons_append, List.append_assoc]
              simp only [pFields]
              rw [if_pos trivial]
              rw [parseStr_escList k.data hwx.1.1
                (':' :: ' ' :: (dumpsL v ++
                  (',' :: ' ' :: (dumpsObj (e2 :: r') ++ rcurl :: rest))))]
              have hdwv : dropJsonWs (' ' :: (dumpsL v ++
                  (',' :: ' ' :: (dumpsObj (e2 :: r') ++ rcurl :: rest)))) =
                  dumpsL v ++
                    (',' :: ' ' :: (dumpsObj (e2 :: r') ++ rcurl :: rest)) := by
                rw [dropJsonWs_space]
                exact dropJsonWs_dumpsL_append v _
              have hpv := hpvv
                (',' :: ' ' :: (dumpsObj (e2 :: r') ++ rcurl :: rest))
                (numCont_of_head ',' _ (by decide) (by decide) (by decide)
                  (by decide))
              have hdwo : dropJsonWs (' ' :: (dumpsObj (e2 :: r') ++ rcurl :: rest)) =
                  dumpsObj (e2 :: r') ++ rcurl :: rest := by
                rw [dropJsonWs_space, hct, List.cons_append]
                exact dropJsonWs_cons_of_not '"' _ (by decide)
              simp [dropJsonWs_cons_of_not ':'
                  (' ' :: (dumpsL v ++
                    (',' :: ' ' :: (dumpsObj (e2 :: r') ++ rcurl :: rest))))
                  (by decide),
                hdwv, hpv,
                dropJsonWs_cons_of_not ','
                  (' ' :: (dumpsObj (e2 :: r') ++ rcurl :: rest)) (by decide),
                hdwo, hrec, hmk]

/-- The value parser applied to a serialized well-formed value with any
non-numeric continuation. -/
theorem pVal_dumpsL (v : Json) (hwf : wfJson v = true) (fuel : Nat)
    (hfuel : jfuel v ≤ fuel) (rest : List Char) (hrest : numCont rest = false) :
    pVal fuel (dumpsL v ++ rest) = some (v, rest) :=
  (roundtrip_bundle (jfuel v)).1 v (Nat.le_refl _) hwf fuel hfuel rest hrest

/-- `json.loads` inverts `json.dumps` on well-formed payloads. -/
theorem loads_dumps (p : Json) (hwf : wfJson p = true) :
    loads (dumps p) = some p := by
  have hdata : (dumps p).data = dumpsL p := rfl
  have hd : dropJsonWs (dumpsL p) = dumpsL p := by
    have h := dropJsonWs_dumpsL_append p []
    simpa using h
  have hp := pVal_dumpsL p hwf ((dumpsL p).length + 1) (jfuel_le p)
    [] (by decide)
  rw [List.append_nil] at hp
  simp only [loads, hdata, hd]
  rw [hp]
  simp [dropJsonWs]

/-! ### Fenced-block extraction on serialized payloads -/

theorem dropWs_cons_of_ws (c : Char) (t : List Char)
    (h : isWsChar c = true) : dropWs (c :: t) = dropWs t := by
  simp [dropWs, h]

/-- In a text without three consecutive backticks, no suffix starts
with a fence. -/
theorem startsWithTicks_suffix_false :
    ∀ s : List Char, hasTicks s = false → ∀ u, u <:+ s →
      startsWithTicks u = false := by
  intro s
  induction s with
  | nil =>
      intro _ u hu
      rw [List.suffix_nil.mp hu]
      rfl
  | cons c rest ih =>
      intro h u hu
      have h2 : startsWithTicks (c :: rest) = false ∧ hasTicks rest = false := by
        simpa [hasTicks, Bool.or_eq_false_iff] using h
      rcases List.suffix_cons_iff.mp hu with h1 | h1
      · rw [h1]
        exact h2.1
      · exact ih h2.2 u h1

/-- The digit list of a natural number ends in a digit character. -/
theorem natDigitsAux_concat : ∀ fuel n, n ≤ fuel →
    ∃ l m, m < 10 ∧ natDigitsAux fuel n = l ++ [digitChar m] := by
  intro fuel
  induction fuel with
  | zero =>
      intro n hn
      have h0 : n = 0 := Nat.le_zero.mp hn
      subst h0
      exact ⟨[], 0, by decide, rfl⟩
  | succ f ih =>
      intro n hn
      simp only [natDigitsAux]
      by_cases h10 : n < 10
      · rw [if_pos h10]
        exact ⟨[], n, h10, rfl⟩
      · rw [if_neg h10]
        exact ⟨natDigitsAux f (n / 10), n % 10, Nat.mod_lt n (by omega), rfl⟩

/-- A serialized value never ends in whitespace. -/
theorem dumpsL_getLast (v : Json) :
    ∃ c, (dumpsL v).getLast? = some c ∧ isWsChar c = false := by
  cases v with
  | null => exact ⟨'l', by decide, by decide⟩
  | bool b =>
      cases b with
      | true => exact ⟨'e', by decide, by decide⟩
      | false => exact ⟨'e', by decide, by decide⟩
  | int i =>
      by_cases hneg : i < 0
      · obtain ⟨l, m, hm, hl⟩ :=
          natDigitsAux_concat i.natAbs i.natAbs (Nat.le_refl _)
        refine ⟨digitChar m, ?_, (digitChar_spec m hm).2.2.2.1⟩
        have hd : dumpsL (.int i) = '-' :: natDigits i.natAbs := by
          simp only [dumpsL, intChars]
          rw [if_pos hneg]
        rw [hd]
        unfold natDigits
        rw [hl]
        rw [show '-' :: (l ++ [digitChar m]) = ('-' :: l) ++ [digitChar m]
          from rfl]
        exact List.getLast?_concat _
      · obtain ⟨l, m, hm, hl⟩ :=
          natDigitsAux_concat i.toNat i.toNat (Nat.le_refl _)
        refine ⟨digitChar m, ?_, (digitChar_spec m hm).2.2.2.1⟩
        have hd : dumpsL (.int i) = natDigits i.toNat := by
          simp only [dumpsL, intChars]
          rw [if_neg hneg]
        rw [hd]
        unfold natDigits
        rw [hl]
        exact List.getLast?_concat _
  | str s =>
      refine ⟨'"', ?_, by decide⟩
      have hd : dumpsL (.str s) = ('"' :: escList s.data) ++ ['"'] := by
        simp [dumpsL]
      rw [hd]
      exact List.getLast?_concat _
  | arr xs =>
      refine ⟨']', ?_, by decide⟩
      have hd : dumpsL (.arr xs) = ('[' :: dumpsArr xs) ++ [']'] := by
        simp [dumpsL]
      rw [hd]
      exact List.getLast?_concat _
  | obj fs =>
      refine ⟨rcurl, ?_, by decide⟩
      have hd : dumpsL (.obj fs) = (lcurl :: dumpsObj fs) ++ [rcurl] := by
        simp [dumpsL]
      rw [hd]
      exact List.getLast?_concat _

/-- In a backtick-free text that does not end in whitespace, the lazy
capture finds no earlier stopping point: no nonempty suffix followed by
the closing newline-fence matches `\s*```` ``` ````. -/
theorem wsThenTicks_suffix_false (s : List Char) (hticks : hasTicks s = false)
    (hlast : ∀ c, s.getLast? = some c → isWsChar c = false) :
    ∀ u, u <:+ s → u ≠ [] →
      wsThenTicks (u ++ ['\n', '`', '`', '`']) = false := by
  intro u
  induction u with
  | nil =>
      intro _ h
      exact absurd rfl h
  | cons c u' ih =>
      intro hu _
      by_cases hws : isWsChar c = true
      · cases u' with
        | nil =>
            exfalso
            have hc : s.getLast? = some c := by
              obtain ⟨t, ht⟩ := hu
              rw [← ht]
              exact List.getLast?_concat t
            have := hlast c hc
            rw [hws] at this
            simp at this
        | cons c2 u'' =>
            have hu' : (c2 :: u'') <:+ s :=
              List.IsSuffix.trans ⟨[c], rfl⟩ hu
            have hrec := ih hu' (by simp)
            simp only [wsThenTicks, List.cons_append] at hrec ⊢
            rw [dropWs_cons_of_ws c _ hws]
            exact hrec
      · have hnw : isWsChar c = false := by
          revert hws
          cases isWsChar c <;> simp
        simp only [wsThenTicks, List.cons_append]
        rw [dropWs_cons_of_not c _ hnw]
        cases u' with
        | nil => simp [startsWithTicks]
        | cons c2 u'' =>
            cases u'' with
            | nil => simp [startsWithTicks]
            | cons c3 u''' =>
                by_cases h3 : c = '`' ∧ c2 = '`' ∧ c3 = '`'
                · exfalso
                  have hsw : startsWithTicks (c :: c2 :: c3 :: u''') = true := by
                    simp [startsWithTicks, h3.1, h3.2.1, h3.2.2]
                  have hfalse := startsWithTicks_suffix_false s hticks _ hu
                  rw [hsw] at hfalse
                  simp at hfalse
                · by_cases hc1 : c = '`'
                  · by_cases hc2 : c2 = '`'
                    · have hc3 : ¬ c3 = '`' := fun h => h3 ⟨hc1, hc2, h⟩
                      simp [startsWithTicks, hc3]
                    · simp [startsWithTicks, hc2]
                  · simp [startsWithTicks, hc1]

/-- The lazy capture recovers exactly the payload text when no earlier
position lets `\s*```` ``` ```` match. -/
theorem captureTo_exact : ∀ s : List Char,
    (∀ u, u <:+ s → u ≠ [] →
      wsThenTicks (u ++ ['\n', '`', '`', '`']) = false) →
    captureTo (s ++ ['\n', '`', '`', '`']) = some s := by
  intro s
  induction s with
  | nil =>
      intro _
      rfl
  | cons c s' ih =>
      intro h
      have hc : wsThenTicks ((c :: s') ++ ['\n', '`', '`', '`']) = false :=
        h (c :: s') (List.suffix_refl _) (by simp)
      have hs' : captureTo (s' ++ ['\n', '`', '`', '`']) = some s' := by
        apply ih
        intro u hu hne
        exact h u (hu.trans ⟨[c], rfl⟩) hne
      simp only [List.cons_append] at hc ⊢
      have hstep : captureTo (c :: (s' ++ ['\n', '`', '`', '`'])) =
          if wsThenTicks (c :: (s' ++ ['\n', '`', '`', '`'])) then some []
          else
            match captureTo (s' ++ ['\n', '`', '`', '`']) with
            | some cap => some (c :: cap)
            | none => none := rfl
      rw [hstep, hc]
      simp [hs']

/-- The fence scanner matched at the start of a well-formed fenced
block returns the capture. -/
theorem findFence_fenced (s : List Char)
    (hcap : captureTo (dropWs ('\n' :: (s ++ ['\n', '`', '`', '`']))) =
      some s) :
    findFence ('`' :: '`' :: '`' :: 'j' :: 's' :: 'o' :: 'n' :: '\n' ::
      (s ++ ['\n', '`', '`', '`'])) = some s := by
  have hstart : startsWithL ticksJson
      ('`' :: '`' :: '`' :: 'j' :: 's' :: 'o' :: 'n' :: '\n' ::
        (s ++ ['\n', '`', '`', '`'])) = true := by
    simp [startsWithL, ticksJson]
  have hcf : completeFence ('\n' :: (s ++ ['\n', '`', '`', '`'])) = some s := by
    unfold completeFence
    exact hcap
  have hstep : findFence ('`' :: '`' :: '`' :: 'j' :: 's' :: 'o' :: 'n' ::
      '\n' :: (s ++ ['\n', '`', '`', '`'])) =
      (if startsWithL ticksJson ('`' :: '`' :: '`' :: 'j' :: 's' :: 'o' ::
          'n' :: '\n' :: (s ++ ['\n', '`', '`', '`'])) then
        match completeFence ('\n' :: (s ++ ['\n', '`', '`', '`'])) with
        | some cap => some cap
        | none => findFence ('`' :: '`' :: 'j' :: 's' :: 'o' :: 'n' ::
            '\n' :: (s ++ ['\n', '`', '`', '`']))
      else findFence ('`' :: '`' :: 'j' :: 's' :: 'o' :: 'n' :: '\n' ::
        (s ++ ['\n', '`', '`', '`']))) := rfl
  rw [hstep, if_pos hstart, hcf]

/-- C10: feeding the fenced block `"```json\n" + dumps p + "\n```"`
through `extract_json` and `json.loads` yields the payload `p` back —
provable for well-formed payloads whose serialization does not itself
contain three consecutive backticks (the lazy capture of the fenced
regex otherwise stops at the first interior fence and the round trip
fails, so the claim as stated does not hold for every payload). -/
theorem C10_fenced_roundtrip (p : Json) (hwf : wfJson p = true)
    (hticks : hasTicks (dumpsL p) = false) :
    extract_json ("```json\n" ++ dumps p ++ "\n```") = dumps p ∧
    loads (extract_json ("```json\n" ++ dumps p ++ "\n```")) = some p := by
  have hdata : ("```json\n" ++ dumps p ++ "\n```").data =
      '`' :: '`' :: '`' :: 'j' :: 's' :: 'o' :: 'n' :: '\n' ::
        (dumpsL p ++ ['\n', '`', '`', '`']) := by
    rw [String.data_append, String.data_append]
    rfl
  have hnoearly := wsThenTicks_suffix_false (dumpsL p) hticks
    (by
      intro c hc
      obtain ⟨c0, hc0, hw⟩ := dumpsL_getLast p
      rw [hc0] at hc
      injection hc with hh
      rw [← hh]
      exact hw)
  have hcap : captureTo (dumpsL p ++ ['\n', '`', '`', '`']) =
      some (dumpsL p) := captureTo_exact (dumpsL p) hnoearly
  have hdw : dropWs ('\n' :: (dumpsL p ++ ['\n', '`', '`', '`'])) =
      dumpsL p ++ ['\n', '`', '`', '`'] := by
    rw [dropWs_newline]
    obtain ⟨c, t, hct, _, hw, _, _⟩ := dumpsL_head p
    rw [hct, List.cons_append]
    exact dropWs_cons_of_not c _ hw
  have hcap2 : captureTo (dropWs ('\n' ::
      (dumpsL p ++ ['\n', '`', '`', '`']))) = some (dumpsL p) := by
    rw [hdw]
    exact hcap
  have hff := findFence_fenced (dumpsL p) hcap2
  have hA : extract_json ("```json\n" ++ dumps p ++ "\n```") = dumps p := by
    simp only [extract_json, extract_json_chars, hdata, hff]
    rfl
  refine ⟨hA, ?_⟩
  rw [hA]
  exact loads_dumps p hwf

/-- Witness for C10 at a concrete two-field payload. -/
theorem C10_fenced_roundtrip_witness :
    wfJson (Json.obj [("title", Json.str "Hero"), ("count", Json.int 3)]) =
      true ∧
    hasTicks (dumpsL (Json.obj
      [("title", Json.str "Hero"), ("count", Json.int 3)])) = false ∧
    (extract_json ("```json\n" ++
        dumps (Json.obj [("title", Json.str "Hero"), ("count", Json.int 3)]) ++
        "\n```") =
      dumps (Json.obj [("title", Json.str "Hero"), ("count", Json.int 3)]) ∧
     loads (extract_json ("```json\n" ++
        dumps (Json.obj [("title", Json.str "Hero"), ("count", Json.int 3)]) ++
        "\n```")) =
      some (Json.obj [("title", Json.str "Hero"), ("count", Json.int 3)])) :=
  ⟨by decide, by decide,
    C10_fenced_roundtrip
      (Json.obj [("title", Json.str "Hero"), ("count", Json.int 3)])
      (by decide) (by decide)⟩

/-- C10 counterexample: for the payload `{"s": "```"}`, whose
serialization contains a backtick fence, the capture stops inside the
string: extraction does not return the serialization and decoding the
extracted text fails. -/
theorem C10_roundtrip_counterexample :
    extract_json ("```json\n" ++ dumps (Json.obj [("s", Json.str "```")]) ++
        "\n```") ≠
      dumps (Json.obj [("s", Json.str "```")]) ∧
    loads (extract_json ("```json\n" ++
        dumps (Json.obj [("s", Json.str "```")]) ++ "\n```")) = none :=
  ⟨by decide, by rfl⟩

end Keeda
